import Mathlib

/-!
Verification of the ExcelSlimmerWeb repository against its specification.

The development shallowly embeds the string- and list-level logic of the
Python sources:

* `excel_slimmer_precision_plus.py` — media recompression with reference
  synchronization (`recompress_images_with_sync`,
  `update_rels_targets_for_media`, `update_vml_imagedata_sources`,
  `update_content_types_for_renamed`, `_replace_if_smaller`,
  `convert_png_to_jpg_with_rename_and_resize`, `rezip_max_compress`,
  `get_new_output_path`, `process_file`);
* `excel_image_slimmer_gui_v3.py` — `process_media_file`, `slim_xlsx`;
* `gui_clean_defined_names_desktop_date.py` —
  `surgical_filter_defined_names_text`, `KEEP_NAMES`;
* `web_app/main.py` — the upload gate of `slim_excel`.

Strings are modelled as `List Char` (Python `str`), raw file contents as
`List Nat` (bytes).  External libraries that the sources call as black
boxes (Pillow codecs, lxml serialization, zlib deflate) appear as explicit
parameters of the corresponding definitions.
-/

namespace ExcelSlim

/-- Python strings are modelled as lists of characters. -/
abbrev Str := List Char

/-- Raw binary file contents are modelled as lists of byte values. -/
abbrev Bytes := List Nat

/-- Turn a Lean string literal into the `List Char` model. -/
def lstr (s : String) : Str := s.data

/-- Bool test that `p` is a prefix of `s` (Python `str.startswith`,
and the first step of a regex literal match). -/
def isPre : Str → Str → Bool
  | [], _ => true
  | _ :: _, [] => false
  | p :: ps, c :: cs => (p == c) && isPre ps cs

/-- Bool test that `p` occurs in `s` starting at index `j`. -/
def occAt (p s : Str) (j : Nat) : Bool := isPre p (s.drop j)

/-- Bool test that `p` occurs somewhere in `s` (Python `p in s`). -/
def occurs (pat : Str) : Str → Bool
  | [] => isPre pat []
  | c :: cs => isPre pat (c :: cs) || occurs pat cs

/-- Bool test that `p` is a suffix of `s` (Python `str.endswith`). -/
def isSufB (p s : Str) : Bool := isPre p.reverse s.reverse

section PreLemmas

theorem isPre_iff_append {p s : Str} : isPre p s = true ↔ ∃ t, s = p ++ t := by
  induction p generalizing s with
  | nil => simp [isPre]
  | cons a ps ih =>
    cases s with
    | nil => simp [isPre]
    | cons c cs =>
      simp only [isPre, Bool.and_eq_true, beq_iff_eq]
      constructor
      · rintro ⟨rfl, h⟩
        obtain ⟨t, rfl⟩ := ih.mp h
        exact ⟨t, rfl⟩
      · rintro ⟨t, ht⟩
        rw [List.cons_append] at ht
        injection ht with h1 h2
        exact ⟨h1.symm, ih.mpr ⟨t, h2⟩⟩

theorem isPre_length_le {p s : Str} (h : isPre p s = true) : p.length ≤ s.length := by
  obtain ⟨t, rfl⟩ := isPre_iff_append.mp h
  simp

theorem isPre_self_append (p t : Str) : isPre p (p ++ t) = true :=
  isPre_iff_append.mpr ⟨t, rfl⟩

theorem isPre_refl (p : Str) : isPre p p = true := by
  have := isPre_self_append p []
  simpa using this

theorem isPre_take_eq {p s : Str} (h : isPre p s = true) : s.take p.length = p := by
  obtain ⟨t, rfl⟩ := isPre_iff_append.mp h
  exact List.take_left p t

theorem isPre_eq_of_length {p s : Str} (h : isPre p s = true)
    (hl : s.length ≤ p.length) : p = s := by
  obtain ⟨t, rfl⟩ := isPre_iff_append.mp h
  have : t = [] := by
    have := List.length_append p t
    exact List.eq_nil_of_length_eq_zero (by omega)
  simp [this]

theorem isPre_append_left {p x : Str} (y : Str) (h : p.length ≤ x.length) :
    isPre p (x ++ y) = isPre p x := by
  induction p generalizing x with
  | nil => simp [isPre]
  | cons a ps ih =>
    cases x with
    | nil => simp at h
    | cons c cs =>
      simp only [List.cons_append, isPre, List.append_eq]
      rw [ih (by simpa using Nat.le_of_succ_le_succ (by simpa using h))]

theorem isPre_take_of_append {p x y : Str} (h : isPre p (x ++ y) = true)
    (hl : x.length ≤ p.length) :
    p.take x.length = x ∧ isPre (p.drop x.length) y = true := by
  induction x generalizing p with
  | nil => simpa using h
  | cons c cs ih =>
    cases p with
    | nil => simp at hl
    | cons a ps =>
      simp only [List.cons_append, isPre, Bool.and_eq_true, beq_iff_eq] at h
      obtain ⟨rfl, h2⟩ := h
      have := ih h2 (by simpa using Nat.le_of_succ_le_succ (by simpa using hl))
      simp only [List.length_cons, List.take_succ_cons, List.drop_succ_cons]
      exact ⟨by rw [this.1], this.2⟩

theorem isPre_true_take {p s : Str} (m : Nat) (h : isPre p s = true) :
    isPre (p.take m) (s.take m) = true := by
  obtain ⟨t, rfl⟩ := isPre_iff_append.mp h
  rw [List.take_append_eq_append_take]
  exact isPre_self_append _ _

theorem isPre_false_of_take {p s : Str} (m : Nat)
    (h : isPre (p.take m) (s.take m) = false) : isPre p s = false := by
  cases hps : isPre p s with
  | false => rfl
  | true => exact absurd (isPre_true_take m hps) (by simp [h])

end PreLemmas

section OccLemmas

theorem occurs_iff_exists_occAt {p s : Str} :
    occurs p s = true ↔ ∃ j, occAt p s j = true := by
  induction s with
  | nil =>
    simp only [occurs, occAt, List.drop_nil]
    exact ⟨fun h => ⟨0, h⟩, fun ⟨j, h⟩ => h⟩
  | cons c cs ih =>
    simp only [occurs, Bool.or_eq_true]
    constructor
    · rintro (h | h)
      · exact ⟨0, by simpa [occAt] using h⟩
      · obtain ⟨j, hj⟩ := ih.mp h
        exact ⟨j + 1, by simpa [occAt] using hj⟩
    · rintro ⟨j, hj⟩
      cases j with
      | zero => exact Or.inl (by simpa [occAt] using hj)
      | succ j => exact Or.inr (ih.mpr ⟨j, by simpa [occAt] using hj⟩)

theorem occurs_of_occAt {p s : Str} {j : Nat} (h : occAt p s j = true) :
    occurs p s = true :=
  occurs_iff_exists_occAt.mpr ⟨j, h⟩

theorem occAt_le_length {p s : Str} {j : Nat} (hp : p ≠ []) (h : occAt p s j = true) :
    j + p.length ≤ s.length := by
  have hlen := isPre_length_le h
  rw [List.length_drop] at hlen
  rcases Nat.le_total j s.length with hj | hj
  · omega
  · exfalso
    have hdrop : s.drop j = [] := List.drop_eq_nil_of_le hj
    rw [occAt, hdrop] at h
    cases p with
    | nil => exact hp rfl
    | cons a ps => simp [isPre] at h

theorem occurs_iff_parts {p s : Str} :
    occurs p s = true ↔ ∃ a b, s = a ++ p ++ b := by
  rw [occurs_iff_exists_occAt]
  constructor
  · rintro ⟨j, hj⟩
    obtain ⟨t, ht⟩ := isPre_iff_append.mp hj
    refine ⟨s.take j, t, ?_⟩
    conv_lhs => rw [← List.take_append_drop j s]
    rw [ht, List.append_assoc]
  · rintro ⟨a, b, rfl⟩
    refine ⟨a.length, ?_⟩
    rw [occAt, List.append_assoc, List.drop_left]
    exact isPre_self_append _ _

theorem occAt_append_inner {p x : Str} (y : Str) {j : Nat}
    (h : j + p.length ≤ x.length) : occAt p (x ++ y) j = occAt p x j := by
  rw [occAt, occAt, List.drop_append_of_le_length (by omega)]
  exact isPre_append_left y (by rw [List.length_drop]; omega)

theorem occAt_append_right {p : Str} (x y : Str) (m : Nat) :
    occAt p (x ++ y) (x.length + m) = occAt p y m := by
  rw [occAt, occAt, List.drop_append]

theorem occurs_append_of_left {p x : Str} (y : Str) (h : occurs p x = true) :
    occurs p (x ++ y) = true := by
  obtain ⟨a, b, rfl⟩ := occurs_iff_parts.mp h
  exact occurs_iff_parts.mpr ⟨a, b ++ y, by simp⟩

theorem occurs_append_of_right {p : Str} (x : Str) {y : Str} (h : occurs p y = true) :
    occurs p (x ++ y) = true := by
  obtain ⟨a, b, rfl⟩ := occurs_iff_parts.mp h
  exact occurs_iff_parts.mpr ⟨x ++ a, b, by simp⟩

/-- If a pattern of the form `u ++ p ++ v` occurs in `s` then so does `p`. -/
theorem occurs_of_occurs_part {p u v s : Str} (h : occurs (u ++ p ++ v) s = true) :
    occurs p s = true := by
  obtain ⟨a, b, rfl⟩ := occurs_iff_parts.mp h
  exact occurs_iff_parts.mpr ⟨a ++ u, v ++ b, by simp⟩

/-- Every occurrence in an appended string either lies in the left part,
lies in the right part, or straddles the junction, in which case a proper
nonempty prefix of the pattern is a suffix of the left part and the
corresponding remainder of the pattern is a prefix of the right part. -/
theorem occurs_append_cases {p x y : Str} (hp : p ≠ [])
    (h : occurs p (x ++ y) = true) :
    occurs p x = true ∨ occurs p y = true ∨
      ∃ k, 0 < k ∧ k < p.length ∧ p.take k = x.drop (x.length - k) ∧
        isPre (p.drop k) y = true := by
  obtain ⟨j, hj⟩ := occurs_iff_exists_occAt.mp h
  have hjl := occAt_le_length hp hj
  rw [List.length_append] at hjl
  rcases Nat.lt_or_ge (j + p.length) (x.length + 1) with hcase | hcase
  · left
    rw [occAt_append_inner y (by omega)] at hj
    exact occurs_of_occAt hj
  · rcases Nat.lt_or_ge j x.length with hcase2 | hcase2
    · right; right
      refine ⟨x.length - j, by omega, by omega, ?_⟩
      rw [occAt, List.drop_append_of_le_length (by omega)] at hj
      have hxd : (x.drop j).length = x.length - j := by rw [List.length_drop]
      have := isPre_take_of_append hj (by omega)
      rw [hxd] at this
      refine ⟨?_, this.2⟩
      rw [this.1]
      congr 1
      omega
    · right; left
      obtain ⟨m, rfl⟩ := Nat.exists_eq_add_of_le hcase2
      rw [occAt_append_right] at hj
      exact occurs_of_occAt hj

/-- The leftmost occurrence of a pattern: a decomposition before which no
occurrence starts. -/
theorem first_occ {p s : Str} (hp : p ≠ []) (h : occurs p s = true) :
    ∃ a b, s = a ++ p ++ b ∧ ∀ j, j < a.length → occAt p s j = false := by
  induction s with
  | nil =>
    exfalso
    cases p with
    | nil => exact hp rfl
    | cons a ps => simp [occurs, isPre] at h
  | cons c cs ih =>
    by_cases h0 : isPre p (c :: cs) = true
    · obtain ⟨t, ht⟩ := isPre_iff_append.mp h0
      exact ⟨[], t, by simpa using ht, fun j hj => by simp at hj⟩
    · have h1 : occurs p cs = true := by
        have := h
        simp only [occurs, Bool.or_eq_true] at this
        rcases this with h2 | h2
        · exact absurd h2 h0
        · exact h2
      obtain ⟨a, b, hab, hmin⟩ := ih h1
      refine ⟨c :: a, b, by rw [hab]; simp, fun j hj => ?_⟩
      cases j with
      | zero =>
        rw [occAt, List.drop_zero]
        cases hx : isPre p (c :: cs) with
        | false => rfl
        | true => exact absurd hx h0
      | succ j =>
        rw [occAt, List.drop_succ_cons]
        exact hmin j (by simpa using Nat.lt_of_succ_lt_succ hj)

end OccLemmas

section SufLemmas

theorem isSufB_iff {p s : Str} : isSufB p s = true ↔ ∃ a, s = a ++ p := by
  rw [isSufB, isPre_iff_append]
  constructor
  · rintro ⟨t, ht⟩
    refine ⟨t.reverse, ?_⟩
    have := congrArg List.reverse ht
    simpa using this
  · rintro ⟨a, rfl⟩
    exact ⟨a.reverse, by simp⟩

theorem isSufB_drop (s : Str) (j : Nat) : isSufB (s.drop j) s = true :=
  isSufB_iff.mpr ⟨s.take j, (List.take_append_drop j s).symm⟩

end SufLemmas

/-- Fuel-indexed worker for `replaceL`; the fuel only forces structural
termination and is irrelevant as soon as it dominates the input length. -/
def replaceFuel (old new : Str) : Nat → Str → Str
  | 0, s => s
  | _ + 1, [] => []
  | fuel + 1, c :: cs =>
    if !old.isEmpty && isPre old (c :: cs) then
      new ++ replaceFuel old new fuel (List.drop old.length (c :: cs))
    else
      c :: replaceFuel old new fuel cs

/-- Python `str.replace(old, new)`: scan left to right, replacing each
non-overlapping occurrence of `old` by `new`.  The sources only ever call
it with a nonempty `old` (a media filename), which this model assumes. -/
def replaceL (old new : Str) (s : Str) : Str := replaceFuel old new s.length s

section ReplaceLemmas

theorem replaceFuel_eq_of_le (old new : Str) :
    ∀ f₁ f₂ s, s.length ≤ f₁ → s.length ≤ f₂ →
      replaceFuel old new f₁ s = replaceFuel old new f₂ s := by
  intro f₁
  induction f₁ with
  | zero =>
    intro f₂ s h1 h2
    have : s = [] := List.eq_nil_of_length_eq_zero (by omega)
    subst this
    cases f₂ <;> rfl
  | succ f ih =>
    intro f₂ s h1 h2
    cases s with
    | nil => cases f₂ <;> rfl
    | cons c cs =>
      cases f₂ with
      | zero => simp at h2
      | succ g =>
        simp only [replaceFuel]
        by_cases hcond : (!old.isEmpty && isPre old (c :: cs)) = true
        · rw [hcond]
          simp only [if_true]
          congr 1
          have hold : 1 ≤ old.length := by
            cases old with
            | nil => simp at hcond
            | cons _ _ => simp
          apply ih
          · rw [List.length_drop]; simp only [List.length_cons] at h1 ⊢; omega
          · rw [List.length_drop]; simp only [List.length_cons] at h2 ⊢; omega
        · rw [Bool.not_eq_true] at hcond
          rw [hcond]
          simp only [Bool.false_eq_true, if_false]
          congr 1
          apply ih
          · simp only [List.length_cons] at h1; omega
          · simp only [List.length_cons] at h2; omega

theorem replaceL_nil (old new : Str) : replaceL old new [] = [] := rfl

theorem replaceFuel_of_not_occurs (old new : Str) :
    ∀ fuel s, s.length ≤ fuel → occurs old s = false →
      replaceFuel old new fuel s = s := by
  intro fuel
  induction fuel with
  | zero => intro s _ _; rfl
  | succ f ih =>
    intro s hs hocc
    cases s with
    | nil => rfl
    | cons c cs =>
      simp only [occurs, Bool.or_eq_false_iff] at hocc
      simp only [replaceFuel, hocc.1, Bool.and_false, Bool.false_eq_true, if_false]
      congr 1
      exact ih cs (by simp only [List.length_cons] at hs; omega) hocc.2

theorem replaceL_of_not_occurs {old : Str} (new : Str) {s : Str}
    (h : occurs old s = false) : replaceL old new s = s :=
  replaceFuel_of_not_occurs old new s.length s le_rfl h

/-- Splitting a replacement at the leftmost occurrence: if no occurrence of
`old` starts strictly inside `a`, the scan copies `a`, replaces the
occurrence of `old` after it, and continues on `b`. -/
theorem replaceL_first_occ (old new : Str) (hp : old ≠ []) :
    ∀ a b, (∀ j, j < a.length → occAt old (a ++ old ++ b) j = false) →
      replaceL old new (a ++ old ++ b) = a ++ new ++ replaceL old new b := by
  have main : ∀ fuel a b, (a ++ old ++ b).length ≤ fuel →
      (∀ j, j < a.length → occAt old (a ++ old ++ b) j = false) →
      replaceFuel old new fuel (a ++ old ++ b) = a ++ new ++ replaceL old new b := by
    intro fuel
    induction fuel with
    | zero =>
      intro a b hlen _
      exfalso
      have : old.length ≥ 1 := by cases old with | nil => exact absurd rfl hp | cons _ _ => simp
      simp only [List.length_append] at hlen
      omega
    | succ f ih =>
      intro a b hlen hmin
      cases a with
      | nil =>
        simp only [List.nil_append]
        cases old with
        | nil => exact absurd rfl hp
        | cons oc ocs =>
          rw [List.cons_append]
          simp only [replaceFuel]
          have hcond : (!(oc :: ocs).isEmpty && isPre (oc :: ocs) (oc :: (ocs ++ b))) = true := by
            simp only [List.isEmpty, Bool.not_false, Bool.true_and]
            have := isPre_self_append (oc :: ocs) b
            simp only [List.cons_append] at this
            exact this
          rw [hcond]
          simp only [if_true]
          congr 1
          have hdrop : List.drop (oc :: ocs).length (oc :: (ocs ++ b)) = b := by
            have := List.drop_left (oc :: ocs) b
            simp only [List.cons_append] at this
            exact this
          rw [hdrop, replaceL]
          apply replaceFuel_eq_of_le
          · simp only [List.length_append, List.length_cons] at hlen ⊢; omega
          · exact le_rfl
      | cons c cs =>
        have hnotpre : isPre old ((c :: cs) ++ old ++ b) = false := by
          have := hmin 0 (by simp)
          rw [occAt, List.drop_zero] at this
          exact this
        simp only [List.cons_append, replaceFuel, List.append_eq] at hnotpre ⊢
        rw [show isPre old (c :: (cs ++ old ++ b)) = false from by
          simpa using hnotpre]
        simp only [Bool.and_false, Bool.false_eq_true, if_false]
        rw [ih cs b (by simp only [List.length_append, List.length_cons] at hlen ⊢; omega)
          (fun j hj => by
            have := hmin (j + 1) (by simpa using Nat.succ_lt_succ hj)
            rw [occAt] at this ⊢
            simpa using this)]

  intro a b hmin
  exact main (a ++ old ++ b).length a b le_rfl hmin

theorem replaceL_length {old new : Str} (hlen : old.length = new.length) (s : Str) :
    (replaceL old new s).length = s.length := by
  have main : ∀ fuel s, List.length s ≤ fuel →
      (replaceFuel old new fuel s).length = s.length := by
    intro fuel
    induction fuel with
    | zero => intro s _; rfl
    | succ f ih =>
      intro s hs
      cases s with
      | nil => rfl
      | cons c cs =>
        simp only [replaceFuel]
        by_cases hcond : (!old.isEmpty && isPre old (c :: cs)) = true
        · rw [hcond]
          simp only [if_true, List.length_append]
          have hle : old.length ≤ (c :: cs).length := by
            have := isPre_length_le (Bool.and_elim_right hcond)
            exact this
          have h1 : 1 ≤ old.length := by
            cases old with
            | nil => simp at hcond
            | cons _ _ => simp
          rw [ih _ (by rw [List.length_drop]; simp only [List.length_cons] at hs ⊢; omega)]
          rw [List.length_drop]
          simp only [List.length_cons] at hle ⊢
          omega
        · rw [Bool.not_eq_true] at hcond
          rw [hcond]
          simp only [Bool.false_eq_true, if_false, List.length_cons]
          rw [ih _ (by simp only [List.length_cons] at hs; omega)]
  exact main s.length s le_rfl

/-- Core property behind the rename synchronization: replacing every
occurrence of `old` by an equal-length different `new` leaves no
occurrence of `old`, provided no proper nonempty prefix of `old` is a
suffix of `new` and no proper nonempty suffix of `old` is a prefix of
`new`. -/
theorem replaceL_no_occurs {old new : Str} (hp : old ≠ [])
    (hlen : old.length = new.length) (hneq : old ≠ new)
    (hpre : ∀ k, 0 < k → k < old.length → old.take k ≠ new.drop (new.length - k))
    (hsuf : ∀ k, 0 < k → k < old.length → old.drop k ≠ new.take (old.length - k)) :
    ∀ s, occurs old (replaceL old new s) = false := by
  have holdlen : 1 ≤ old.length := by
    cases old with
    | nil => exact absurd rfl hp
    | cons _ _ => simp
  have main : ∀ n s, s.length ≤ n → occurs old (replaceL old new s) = false := by
    intro n
    induction n with
    | zero =>
      intro s hs
      have hnil : s = [] := List.eq_nil_of_length_eq_zero (by omega)
      subst hnil
      rw [replaceL_nil]
      cases old with
      | nil => exact absurd rfl hp
      | cons a ps => simp [occurs, isPre]
    | succ n ih =>
      intro s hs
      cases hocc : occurs old s with
      | false => rw [replaceL_of_not_occurs new hocc]; exact hocc
      | true =>
        obtain ⟨a, b, rfl, hmin⟩ := first_occ hp hocc
        rw [replaceL_first_occ old new hp a b hmin]
        set R := replaceL old new b with hRdef
        have hRocc : occurs old R = false := by
          apply ih
          simp only [List.length_append] at hs
          omega
        cases hfin : occurs old (a ++ new ++ R) with
        | false => rfl
        | true =>
          exfalso
          rw [List.append_assoc] at hfin
          rcases occurs_append_cases hp hfin with hca | hcnr
          · obtain ⟨j, hja⟩ := occurs_iff_exists_occAt.mp hca
            have hjal := occAt_le_length hp hja
            have hjlt : j < a.length := by omega
            have hm := hmin j hjlt
            rw [List.append_assoc, occAt_append_inner (old ++ b) (by omega)] at hm
            rw [hm] at hja
            exact Bool.false_ne_true hja
          rcases hcnr with hcnr | hjunc
          · rcases occurs_append_cases hp hcnr with hcn | hcr
            · obtain ⟨j, hjn⟩ := occurs_iff_exists_occAt.mp hcn
              have hjnl := occAt_le_length hp hjn
              have hj0 : j = 0 := by omega
              subst hj0
              rw [occAt, List.drop_zero] at hjn
              exact hneq (isPre_eq_of_length hjn (by omega))
            rcases hcr with hcr | hjunc2
            · rw [hRocc] at hcr
              exact Bool.false_ne_true hcr
            · obtain ⟨k, hk0, hklt, htake, _⟩ := hjunc2
              exact hpre k hk0 hklt htake
          · obtain ⟨k, hk0, hklt, _, hdp⟩ := hjunc
            rw [isPre_append_left R (by rw [List.length_drop]; omega)] at hdp
            have htk := isPre_take_eq hdp
            rw [List.length_drop] at htk
            exact hsuf k hk0 hklt htk.symm
  exact fun s => main s.length s le_rfl

end ReplaceLemmas

theorem occurs_left_part {p u s : Str} (h : occurs (u ++ p) s = true) :
    occurs p s = true := by
  apply occurs_of_occurs_part (u := u) (v := [])
  rw [List.append_nil]
  exact h

/-- One entry of the rename map built by `recompress_images_with_sync`:
the old media filename paired with the new one. -/
abbrev RenamePair := Str × Str

/-- The match test of the rels pass, `update_rels_targets_for_media`
line 192: the Target contains `/media/<old>` or ends with `media/<old>`. -/
def relMatches (old tgt : Str) : Bool :=
  occurs (lstr "/media/" ++ old) tgt || isSufB (lstr "media/" ++ old) tgt

/-- Effect of the inner loop of `update_rels_targets_for_media`
(lines 189-194) on one relationship Target attribute.  Faithful to the
source: both the match test and the replacement use the Target value
`tgt` fetched before the loop, so when several pairs match the same
Target the last matching pair overwrites the earlier rewrites. -/
def relTargetAfter (pairs : List RenamePair) (tgt : Str) : Str :=
  pairs.foldl
    (fun acc pr => if relMatches pr.1 tgt then replaceL pr.1 pr.2 tgt else acc) tgt

/-- The match test of `update_content_types_for_renamed` line 232:
the Override PartName ends with `/xl/media/<old>`. -/
def ctMatches (old part : Str) : Bool := isSufB (lstr "/xl/media/" ++ old) part

/-- Effect of the loop of `update_content_types_for_renamed`
(lines 229-234) on one Override PartName attribute; it has the same
stale-value structure as the rels pass. -/
def ctPartAfter (pairs : List RenamePair) (part : Str) : Str :=
  pairs.foldl
    (fun acc pr => if ctMatches pr.1 part then replaceL pr.1 pr.2 part else acc)
    part

/-- Effect of `update_vml_imagedata_sources` (lines 209-213) on one VML
drawing text: cumulative textual substitution of the literal media paths
`/xl/media/<old>` by `/xl/media/<new>`. -/
def vmlTextAfter (pairs : List RenamePair) (s : Str) : Str :=
  pairs.foldl
    (fun acc pr =>
      replaceL (lstr "/xl/media/" ++ pr.1) (lstr "/xl/media/" ++ pr.2) acc) s

/-- The reference-bearing contents of an unpacked package as the three
synchronization passes read them: relationship Target attributes, VML
drawing texts and content-type Override PartName attributes. -/
structure Package where
  relsTargets : List Str
  vmlTexts : List Str
  ctOverrides : List Str
deriving DecidableEq

/-- The synchronization step of `recompress_images_with_sync`
(lines 292-295): the three passes run exactly when the rename map is
non-empty. -/
def syncPackage (pairs : List RenamePair) (pkg : Package) : Package :=
  if pairs.isEmpty then pkg
  else
    { relsTargets := pkg.relsTargets.map (relTargetAfter pairs)
      vmlTexts := pkg.vmlTexts.map (vmlTextAfter pairs)
      ctOverrides := pkg.ctOverrides.map (ctPartAfter pairs) }

/-- Decidable side conditions on a rename pair under which plain textual
replacement removes every occurrence of the old name: equal lengths,
distinct names, no proper nonempty prefix of the old name is a suffix of
the new name, and no proper nonempty suffix of it is a prefix of the new
name. -/
def junctionFree (old new : Str) : Bool :=
  (old.length == new.length) && !(old == new) &&
  ((List.range old.length).all fun k =>
    (k == 0) || !(old.take k == new.drop (new.length - k))) &&
  ((List.range old.length).all fun k =>
    (k == 0) || !(old.drop k == new.take (old.length - k)))

theorem junctionFree_spec {old new : Str} (h : junctionFree old new = true) :
    old.length = new.length ∧ old ≠ new ∧
    (∀ k, 0 < k → k < old.length → old.take k ≠ new.drop (new.length - k)) ∧
    (∀ k, 0 < k → k < old.length → old.drop k ≠ new.take (old.length - k)) := by
  simp only [junctionFree, Bool.and_eq_true, beq_iff_eq, Bool.not_eq_true',
    List.all_eq_true, List.mem_range, Bool.or_eq_true, beq_eq_false_iff_ne] at h
  obtain ⟨⟨⟨h1, h2⟩, h3⟩, h4⟩ := h
  refine ⟨h1, h2, ?_, ?_⟩
  · intro k hk0 hklt
    rcases h3 k hklt with hc | hc
    · exact absurd hc (by omega)
    · exact hc
  · intro k hk0 hklt
    rcases h4 k hklt with hc | hc
    · exact absurd hc (by omega)
    · exact hc

/-- Decidable conditions expressing that the bare old name can occur
neither inside the rewritten media path `N` nor straddling one of its
boundaries. -/
def noCrossOcc (p N : Str) : Bool :=
  !(occurs p N) &&
  ((List.range p.length).all fun k =>
    (k == 0) || !(p.take k == N.drop (N.length - k))) &&
  ((List.range p.length).all fun k =>
    (k == 0) || !(p.drop k == N.take (p.length - k)))

theorem noCrossOcc_spec {p N : Str} (h : noCrossOcc p N = true) :
    occurs p N = false ∧
    (∀ k, 0 < k → k < p.length → p.take k ≠ N.drop (N.length - k)) ∧
    (∀ k, 0 < k → k < p.length → p.drop k ≠ N.take (p.length - k)) := by
  simp only [noCrossOcc, Bool.and_eq_true, Bool.not_eq_true', beq_iff_eq,
    List.all_eq_true, List.mem_range, Bool.or_eq_true, beq_eq_false_iff_ne] at h
  obtain ⟨⟨h1, h2⟩, h3⟩ := h
  refine ⟨h1, ?_, ?_⟩
  · intro k hk0 hklt
    rcases h2 k hklt with hc | hc
    · exact absurd hc (by omega)
    · exact hc
  · intro k hk0 hklt
    rcases h3 k hklt with hc | hc
    · exact absurd hc (by omega)
    · exact hc

/-- Occurrence analysis in a three-part string whose middle part is
longer than the pattern and cross-occurrence free. -/
theorem occurs_three_parts_false {p a N b : Str} (hp : p ≠ [])
    (hlt : p.length < N.length)
    (ha : occurs p a = false) (hb : occurs p b = false)
    (hcross : noCrossOcc p N = true) :
    occurs p (a ++ N ++ b) = false := by
  obtain ⟨hN, hjun1, hjun2⟩ := noCrossOcc_spec hcross
  cases hfin : occurs p (a ++ N ++ b) with
  | false => rfl
  | true =>
    exfalso
    rw [List.append_assoc] at hfin
    rcases occurs_append_cases hp hfin with h1 | h2
    · rw [ha] at h1
      exact Bool.false_ne_true h1
    rcases h2 with h2 | hj
    · rcases occurs_append_cases hp h2 with hN2 | h3
      · rw [hN] at hN2
        exact Bool.false_ne_true hN2
      rcases h3 with h3 | hj2
      · rw [hb] at h3
        exact Bool.false_ne_true h3
      · obtain ⟨k, hk0, hklt, htake, _⟩ := hj2
        exact hjun1 k hk0 hklt htake
    · obtain ⟨k, hk0, hklt, _, hdp⟩ := hj
      rw [isPre_append_left b (by rw [List.length_drop]; omega)] at hdp
      have htk := isPre_take_eq hdp
      rw [List.length_drop] at htk
      exact hjun2 k hk0 hklt htk.symm

theorem relTargetAfter_single (old new t : Str) :
    relTargetAfter [(old, new)] t =
      if relMatches old t then replaceL old new t else t := rfl

theorem ctPartAfter_single (old new t : Str) :
    ctPartAfter [(old, new)] t =
      if ctMatches old t then replaceL old new t else t := rfl

theorem vmlTextAfter_single (old new s : Str) :
    vmlTextAfter [(old, new)] s =
      replaceL (lstr "/xl/media/" ++ old) (lstr "/xl/media/" ++ new) s := rfl

/-- C1, counterexample.  With the rename map built from the two opaque
PNG assets `a.png` and `a.png.png` (both converted, in directory
iteration order), the relationship Target `../media/a.png.png` is
rewritten by the stale-value loop of `update_rels_targets_for_media` to
`../media/a.png.jpg`, which still contains the rename-map key `a.png`:
the rename-closure invariant fails although all three passes ran on a
non-empty rename map. -/
theorem C1_rename_closure_counterexample :
    [((lstr "a.png"), (lstr "a.jpg")), ((lstr "a.png.png"), (lstr "a.png.jpg"))] ≠
      ([] : List RenamePair) ∧
    (lstr "a.png", lstr "a.jpg") ∈
      [((lstr "a.png"), (lstr "a.jpg")), ((lstr "a.png.png"), (lstr "a.png.jpg"))] ∧
    (syncPackage
        [((lstr "a.png"), (lstr "a.jpg")), ((lstr "a.png.png"), (lstr "a.png.jpg"))]
        { relsTargets := [lstr "../media/a.png.png"], vmlTexts := [],
          ctOverrides := [] }).relsTargets = [lstr "../media/a.png.jpg"] ∧
    occurs (lstr "a.png") (lstr "../media/a.png.jpg") = true := by
  refine ⟨by decide, by decide, ?_, by decide⟩
  decide

/-- C1, amended.  For a rename map with a single junction-free pair whose
old name occurs in relationship Targets and Override PartNames only where
the pass conditions fire, and occurs in VML texts only as the unique
literal path `/xl/media/<old>`, the synchronization (which runs all three
passes because the map is non-empty) leaves no reference that still
contains the old filename. -/
theorem C1_rename_closure (old new : Str) (pkg : Package)
    (hp : old ≠ [])
    (hjf : junctionFree old new = true)
    (hjB : junctionFree (lstr "/xl/media/" ++ old) (lstr "/xl/media/" ++ new) = true)
    (hcross : noCrossOcc old (lstr "/xl/media/" ++ new) = true)
    (hrel : ∀ t ∈ pkg.relsTargets, occurs old t = true → relMatches old t = true)
    (hvml : ∀ s ∈ pkg.vmlTexts, occurs old s = false ∨
      ∃ a b, s = a ++ (lstr "/xl/media/" ++ old) ++ b ∧
        (∀ j, j < a.length → occAt (lstr "/xl/media/" ++ old) s j = false) ∧
        occurs old a = false ∧ occurs old b = false)
    (hct : ∀ t ∈ pkg.ctOverrides, occurs old t = true → ctMatches old t = true) :
    syncPackage [(old, new)] pkg =
      { relsTargets := pkg.relsTargets.map (relTargetAfter [(old, new)])
        vmlTexts := pkg.vmlTexts.map (vmlTextAfter [(old, new)])
        ctOverrides := pkg.ctOverrides.map (ctPartAfter [(old, new)]) } ∧
    (∀ t ∈ (syncPackage [(old, new)] pkg).relsTargets, occurs old t = false) ∧
    (∀ s ∈ (syncPackage [(old, new)] pkg).vmlTexts, occurs old s = false) ∧
    (∀ t ∈ (syncPackage [(old, new)] pkg).ctOverrides, occurs old t = false) := by
  obtain ⟨hlen, hneq, hpre, hsuf⟩ := junctionFree_spec hjf
  obtain ⟨hlenB, hneqB, hpreB, hsufB⟩ := junctionFree_spec hjB
  have hpB : lstr "/xl/media/" ++ old ≠ [] := by
    intro hcon
    have := congrArg List.length hcon
    simp [lstr] at this
  have hsync : syncPackage [(old, new)] pkg =
      { relsTargets := pkg.relsTargets.map (relTargetAfter [(old, new)])
        vmlTexts := pkg.vmlTexts.map (vmlTextAfter [(old, new)])
        ctOverrides := pkg.ctOverrides.map (ctPartAfter [(old, new)]) } := by
    rw [syncPackage]
    simp
  refine ⟨hsync, ?_, ?_, ?_⟩
  · rw [hsync]
    intro t ht
    simp only [List.mem_map] at ht
    obtain ⟨t0, ht0, rfl⟩ := ht
    rw [relTargetAfter_single]
    cases hm : relMatches old t0 with
    | true =>
      simp only [if_true]
      exact replaceL_no_occurs hp hlen hneq hpre hsuf t0
    | false =>
      simp only [Bool.false_eq_true, if_false]
      cases hocc : occurs old t0 with
      | false => rfl
      | true => exact absurd (hrel t0 ht0 hocc) (by simp [hm])
  · rw [hsync]
    intro s hsmem
    simp only [List.mem_map] at hsmem
    obtain ⟨s0, hs0, rfl⟩ := hsmem
    rw [vmlTextAfter_single]
    rcases hvml s0 hs0 with hno | ⟨a, b, rfl, hminB, ha, hb⟩
    · have hnoB : occurs (lstr "/xl/media/" ++ old) s0 = false := by
        cases hB : occurs (lstr "/xl/media/" ++ old) s0 with
        | false => rfl
        | true => rw [occurs_left_part hB] at hno; exact absurd hno (by simp)
      rw [replaceL_of_not_occurs _ hnoB]
      exact hno
    · rw [replaceL_first_occ _ _ hpB a b hminB]
      have hbB : occurs (lstr "/xl/media/" ++ old) b = false := by
        cases hB : occurs (lstr "/xl/media/" ++ old) b with
        | false => rfl
        | true => rw [occurs_left_part hB] at hb; exact absurd hb (by simp)
      rw [replaceL_of_not_occurs _ hbB]
      apply occurs_three_parts_false hp _ ha hb hcross
      have hmedlen : (lstr "/xl/media/").length = 10 := rfl
      have h10 : (lstr "/xl/media/" ++ new).length = 10 + new.length := by
        rw [List.length_append, hmedlen]
      omega
  · rw [hsync]
    intro t ht
    simp only [List.mem_map] at ht
    obtain ⟨t0, ht0, rfl⟩ := ht
    rw [ctPartAfter_single]
    cases hm : ctMatches old t0 with
    | true =>
      simp only [if_true]
      exact replaceL_no_occurs hp hlen hneq hpre hsuf t0
    | false =>
      simp only [Bool.false_eq_true, if_false]
      cases hocc : occurs old t0 with
      | false => rfl
      | true => exact absurd (hct t0 ht0 hocc) (by simp [hm])

/-- C1, witness: the amended closure theorem applied to a concrete
package holding one relationship Target, one VML text and one Override
for the single rename `image1.png` to `image1.jpg`. -/
theorem C1_rename_closure_witness :
    junctionFree (lstr "image1.png") (lstr "image1.jpg") = true ∧
    (∀ t ∈ (syncPackage [((lstr "image1.png"), (lstr "image1.jpg"))]
        { relsTargets := [lstr "../media/image1.png"],
          vmlTexts := [lstr "<v:imagedata src=\"/xl/media/image1.png\"/>"],
          ctOverrides := [lstr "/xl/media/image1.png"] }).relsTargets,
      occurs (lstr "image1.png") t = false) ∧
    (∀ s ∈ (syncPackage [((lstr "image1.png"), (lstr "image1.jpg"))]
        { relsTargets := [lstr "../media/image1.png"],
          vmlTexts := [lstr "<v:imagedata src=\"/xl/media/image1.png\"/>"],
          ctOverrides := [lstr "/xl/media/image1.png"] }).vmlTexts,
      occurs (lstr "image1.png") s = false) := by
  have hmain := C1_rename_closure (lstr "image1.png") (lstr "image1.jpg")
    { relsTargets := [lstr "../media/image1.png"],
      vmlTexts := [lstr "<v:imagedata src=\"/xl/media/image1.png\"/>"],
      ctOverrides := [lstr "/xl/media/image1.png"] }
    (by decide) (by decide) (by decide) (by decide)
    (by decide)
    (by
      intro s hs
      have hs0 : s = lstr "<v:imagedata src=\"/xl/media/image1.png\"/>" := by
        simpa using hs
      subst hs0
      right
      exact ⟨lstr "<v:imagedata src=\"", lstr "\"/>", by decide, by decide,
        by decide, by decide⟩)
    (by decide)
  exact ⟨by decide, hmain.2.1, hmain.2.2.1⟩

/-- Byte-level decision of `_replace_if_smaller` (lines 140-153): the
original media file keeps its bytes unless the freshly written temp file
exists and is strictly smaller; the Bool records whether a replacement
happened.  The exception branch of the source behaves like the keep
branch (temp deleted, original untouched). -/
def replaceIfSmaller (orig : Bytes) (temp : Option Bytes) : Bool × Bytes :=
  match temp with
  | none => (false, orig)
  | some t => if t.length < orig.length then (true, t) else (false, orig)

/-- Byte-level decision of `process_media_file`
(excel_image_slimmer_gui_v3.py lines 104-111): the re-encoded bytes are
written back only when strictly smaller than the original bytes. -/
def processMediaBytes (original newBytes : Bytes) : Bytes :=
  if newBytes.length < original.length then newBytes else original

/-- Decision-relevant attributes of a PNG asset as read by
`convert_png_to_jpg_with_rename_and_resize` (lines 155-178).  The codec
is a black box: `jpegSize` stands for the byte size the JPEG encoder
produced for the transposed, resized, RGB-converted image. -/
structure PngInput where
  stem : Str
  mode : Str
  transparency : Bool
  origSize : Nat
  jpegSize : Nat

/-- The alpha test of line 158: mode `RGBA` or `LA`, or a transparency
entry in the image info. -/
def hasAlpha (i : PngInput) : Bool :=
  (i.mode == lstr "RGBA") || (i.mode == lstr "LA") || i.transparency

/-- Return value of `convert_png_to_jpg_with_rename_and_resize`
(lines 155-178): the new filename when the asset was converted and
renamed, `none` otherwise (alpha present, result not smaller, or any
exception). -/
def convertPngToJpg (i : PngInput) : Option Str :=
  if hasAlpha i then none
  else if i.jpegSize < i.origSize then some (i.stem ++ lstr ".jpg") else none

/-- Bytes of one relationship file after `update_rels_targets_for_media`:
when any Target matches a rename pair the whole tree is re-serialized and
written back (`tree.write`, line 196) with no size guard; `serialize` is
the black-box XML serializer. -/
def relsFileBytesAfter (serialize : List Str → Bytes) (origBytes : Bytes)
    (pairs : List RenamePair) (targets : List Str) : Bytes :=
  if targets.any (fun t => pairs.any (fun pr => relMatches pr.1 t)) then
    serialize (targets.map (relTargetAfter pairs))
  else origBytes

theorem vmlTextAfter_length (pairs : List RenamePair)
    (h : ∀ pr ∈ pairs, pr.1.length = pr.2.length) (s : Str) :
    (vmlTextAfter pairs s).length = s.length := by
  induction pairs generalizing s with
  | nil => rfl
  | cons pr rest ih =>
    have hstep : vmlTextAfter (pr :: rest) s =
        vmlTextAfter rest
          (replaceL (lstr "/xl/media/" ++ pr.1) (lstr "/xl/media/" ++ pr.2) s) := by
      rw [vmlTextAfter, vmlTextAfter, List.foldl_cons]
    rw [hstep, ih (fun q hq => h q (List.mem_cons_of_mem pr hq))]
    apply replaceL_length
    rw [List.length_append, List.length_append, h pr (List.mem_cons_self pr rest)]

/-- C2, counterexample.  The relationship-file rewrite of the reference
synchronizer has no size guard: it re-serializes and writes the file
whenever a Target matched.  With a serializer whose output is larger
than the original part bytes (as XML pretty-printing can be), the edited
part grows and is not byte-identical to the original, refuting the
never-grow claim for XML-part edits. -/
theorem C2_never_grow_counterexample :
    (relsFileBytesAfter (fun _ => List.replicate 100 60) [1, 2, 3]
        [((lstr "a.png"), (lstr "a.jpg"))] [lstr "../media/a.png"]).length >
      ([1, 2, 3] : Bytes).length ∧
    relsFileBytesAfter (fun _ => List.replicate 100 60) [1, 2, 3]
        [((lstr "a.png"), (lstr "a.jpg"))] [lstr "../media/a.png"] ≠ [1, 2, 3] := by
  constructor
  · decide
  · decide

/-- C2, amended.  Never-grow holds for every media asset: the in-place
replacement paths keep the original bytes unless the new encoding is
strictly smaller, PNG conversion only happens on a strictly smaller
encoding, and the VML text edit preserves byte size exactly when the
rename pairs relate names of equal length.  (The relationship-file and
content-type re-serializations carry no size guard; see the
counterexample.) -/
theorem C2_never_grow (orig : Bytes) (temp : Option Bytes)
    (original newBytes : Bytes) (i : PngInput)
    (pairs : List RenamePair) (s : Str)
    (hpairs : ∀ pr ∈ pairs, pr.1.length = pr.2.length) :
    ((replaceIfSmaller orig temp).2.length ≤ orig.length ∧
      ((replaceIfSmaller orig temp).2 ≠ orig →
        (replaceIfSmaller orig temp).2.length < orig.length)) ∧
    ((processMediaBytes original newBytes).length ≤ original.length ∧
      (processMediaBytes original newBytes ≠ original →
        (processMediaBytes original newBytes).length < original.length)) ∧
    (∀ n, convertPngToJpg i = some n → i.jpegSize < i.origSize) ∧
    (vmlTextAfter pairs s).length = s.length := by
  refine ⟨?_, ?_, ?_, vmlTextAfter_length pairs hpairs s⟩
  · match temp with
    | none => exact ⟨le_rfl, fun hne => absurd rfl hne⟩
    | some t =>
      simp only [replaceIfSmaller]
      by_cases hlt : t.length < orig.length
      · rw [if_pos hlt]
        exact ⟨le_of_lt hlt, fun _ => hlt⟩
      · rw [if_neg hlt]
        exact ⟨le_rfl, fun hne => absurd rfl hne⟩
  · simp only [processMediaBytes]
    by_cases hlt : newBytes.length < original.length
    · rw [if_pos hlt]
      exact ⟨le_of_lt hlt, fun _ => hlt⟩
    · rw [if_neg hlt]
      exact ⟨le_rfl, fun hne => absurd rfl hne⟩
  · intro n hn
    rw [convertPngToJpg] at hn
    by_cases halpha : hasAlpha i = true
    · rw [if_pos halpha] at hn
      exact absurd hn (by simp)
    · rw [if_neg halpha] at hn
      by_cases hlt : i.jpegSize < i.origSize
      · exact hlt
      · rw [if_neg hlt] at hn
        exact absurd hn (by simp)

/-- C2, witness: the amended never-grow theorem at concrete bytes, a
concrete PNG input and a concrete equal-length rename pair. -/
theorem C2_never_grow_witness :
    (∀ pr ∈ [((lstr "a.png"), (lstr "a.jpg"))], pr.1.length = pr.2.length) ∧
    ((replaceIfSmaller [1, 2, 3] (some [7])).2.length ≤ ([1, 2, 3] : Bytes).length ∧
      (vmlTextAfter [((lstr "a.png"), (lstr "a.jpg"))]
        (lstr "<v:imagedata src=\"/xl/media/a.png\"/>")).length =
        (lstr "<v:imagedata src=\"/xl/media/a.png\"/>").length) := by
  have hmain := C2_never_grow [1, 2, 3] (some [7]) [9, 9] [5]
    { stem := lstr "pic", mode := lstr "RGB", transparency := false,
      origSize := 10, jpegSize := 4 }
    [((lstr "a.png"), (lstr "a.jpg"))]
    (lstr "<v:imagedata src=\"/xl/media/a.png\"/>")
    (by decide)
  exact ⟨by decide, hmain.1.1, hmain.2.2.2⟩

/-- Abstract pixel-buffer operations invoked on one media asset. -/
inductive ImgOp where
  | exifTranspose
  | thumbnail (maxW maxH : Nat)
  | downscale (maxLongEdge : Nat)
  | convertRGB
  | encodeJPEG (quality : Nat)
  | encodePNG
  | encodeOther
deriving DecidableEq

/-- `JPEG_QUALITY_SAFE` of excel_slimmer_precision_plus.py line 38. -/
def JPEG_QUALITY_SAFE : Nat := 85

/-- `JPEG_QUALITY_AGGRESSIVE` of excel_slimmer_precision_plus.py line 39. -/
def JPEG_QUALITY_AGGRESSIVE : Nat := 70

/-- Operation sequence of the aggressive-mode JPEG branch of
`recompress_images_with_sync` (lines 262-267); `needsRGB` records
whether the decoded mode was RGBA or P. -/
def aggrJpegOps (needsRGB : Bool) : List ImgOp :=
  [.exifTranspose, .thumbnail 1600 1600] ++
    (if needsRGB then [.convertRGB] else []) ++
    [.encodeJPEG JPEG_QUALITY_AGGRESSIVE]

/-- Operation sequence of the safe-mode JPEG branch of
`recompress_images_with_sync` (lines 271-272): a single re-encode with
no orientation correction and no resize. -/
def safeJpegOps : List ImgOp := [.encodeJPEG JPEG_QUALITY_SAFE]

/-- Operation sequence of `convert_png_to_jpg_with_rename_and_resize`
on an opaque PNG in aggressive mode (lines 161-166). -/
def aggrPngOps : List ImgOp :=
  [.exifTranspose, .thumbnail 1600 1600, .convertRGB,
    .encodeJPEG JPEG_QUALITY_AGGRESSIVE]

/-- Operation sequence of the safe-mode PNG branch of
`recompress_images_with_sync` (lines 282-284). -/
def safePngOps : List ImgOp := [.encodePNG]

/-- Operation sequence of `process_media_file` in the v3 image slimmer
(lines 78-98): orientation fix, downscale, then the per-format encode. -/
def v3Ops (maxLongEdge : Nat) (enc : ImgOp) : List ImgOp :=
  [.exifTranspose, .downscale maxLongEdge, enc]

/-- An operation that resamples pixel dimensions. -/
def isResizeOp : ImgOp → Bool
  | .thumbnail _ _ => true
  | .downscale _ => true
  | _ => false

/-- An operation that re-encodes the asset to bytes. -/
def isEncodeOp : ImgOp → Bool
  | .encodeJPEG _ => true
  | .encodePNG => true
  | .encodeOther => true
  | _ => false

/-- Every resize in the trace happens after an orientation fix: no
resize occurs among the operations preceding the first
`exifTranspose`. -/
def orientedBeforeEveryResize (ops : List ImgOp) : Bool :=
  (ops.takeWhile fun op => !(op == ImgOp.exifTranspose)).all fun op => !isResizeOp op

/-- C3, counterexample.  In Safe mode both re-encoding branches of
`recompress_images_with_sync` run an encode with no orientation
correction at all, so orientation correction is not performed for every
re-encoded asset in both modes. -/
theorem C3_orientation_counterexample :
    safeJpegOps.any isEncodeOp = true ∧
    ImgOp.exifTranspose ∉ safeJpegOps ∧
    safePngOps.any isEncodeOp = true ∧
    ImgOp.exifTranspose ∉ safePngOps := by
  refine ⟨by decide, by decide, by decide, by decide⟩

/-- C3, amended.  In aggressive mode (both the JPEG branch and the PNG
conversion) and in the v3 image slimmer, the orientation fix is applied
and precedes the resize; the safe-mode branches perform no resize, so in
every mode no asset is ever resized without a prior orientation fix. -/
theorem C3_orientation_before_resize :
    (∀ needsRGB,
      ImgOp.exifTranspose ∈ aggrJpegOps needsRGB ∧
      (aggrJpegOps needsRGB).any isResizeOp = true ∧
      orientedBeforeEveryResize (aggrJpegOps needsRGB) = true) ∧
    (ImgOp.exifTranspose ∈ aggrPngOps ∧
      aggrPngOps.any isResizeOp = true ∧
      orientedBeforeEveryResize aggrPngOps = true) ∧
    (∀ maxLongEdge enc,
      ImgOp.exifTranspose ∈ v3Ops maxLongEdge enc ∧
      orientedBeforeEveryResize (v3Ops maxLongEdge enc) = true) ∧
    (safeJpegOps.all (fun op => !isResizeOp op) = true ∧
      safePngOps.all (fun op => !isResizeOp op) = true ∧
      orientedBeforeEveryResize safeJpegOps = true ∧
      orientedBeforeEveryResize safePngOps = true) := by
  refine ⟨by decide, by decide, ?_, by decide⟩
  intro maxLongEdge enc
  constructor
  · exact List.mem_cons_self _ _
  · rfl

/-- One file of the scratch directory tree handed to the repacker:
relative archive path, on-disk modification time, file bytes. -/
abbrev FileRec := Str × Nat × Bytes

/-- One entry written to the output ZIP by `zipfile.ZipFile.write`: the
archive name, the modification time recorded from the file on disk, and
the deflate-compressed data. -/
structure ZEntry where
  arcname : Str
  mtime : Nat
  data : Bytes
deriving DecidableEq

/-- Codepoint-lexicographic string order, the order `sorted()` puts the
scanned POSIX-style paths in. -/
def strLe : Str → Str → Bool
  | [], _ => true
  | _ :: _, [] => false
  | a :: as, b :: bs =>
    if a.toNat < b.toNat then true
    else if b.toNat < a.toNat then false
    else strLe as bs

/-- Insertion step of the sorting model. -/
def insertRec (r : FileRec) : List FileRec → List FileRec
  | [] => [r]
  | g :: gs => if strLe r.1 g.1 then r :: g :: gs else g :: insertRec r gs

/-- `sorted(unpacked_dir.rglob("*"))` of `rezip_max_compress` line 364,
restricted to the regular files: sort by archive path. -/
def sortRecs : List FileRec → List FileRec
  | [] => []
  | r :: rs => insertRec r (sortRecs rs)

/-- `rezip_max_compress` (lines 362-367): every file of the scratch tree
is written in sorted path order with deflate-compressed bytes; `deflate`
is the black-box zlib level-9 compressor, and each written entry records
the modification time of the file on disk. -/
def rezipMaxCompress (deflate : Bytes → Bytes) (files : List FileRec) :
    List ZEntry :=
  (sortRecs files).map fun r => { arcname := r.1, mtime := r.2.1, data := deflate r.2.2 }

/-- `zipfile.extractall` (in `unzip_to_temp`, lines 133-138) writes the
archive members to the scratch tree without restoring archive
timestamps, so every extracted file carries the extraction time `now`. -/
def unzipToTemp (now : Nat) (entries : List (Str × Bytes)) : List FileRec :=
  entries.map fun e => (e.1, now, e.2)

/-- One extract-then-repack run on an input package, at wall-clock
extraction time `now`. -/
def extractRepack (deflate : Bytes → Bytes) (now : Nat)
    (pkg : List (Str × Bytes)) : List ZEntry :=
  rezipMaxCompress deflate (unzipToTemp now pkg)

section SortLemmas

theorem char_toNat_inj {a b : Char} (h : a.toNat = b.toNat) : a = b := by
  have hcast := congrArg Char.ofNat h
  rwa [Char.ofNat_toNat, Char.ofNat_toNat] at hcast

theorem strLe_total : ∀ a b : Str, strLe a b = true ∨ strLe b a = true
  | [], _ => Or.inl rfl
  | _ :: _, [] => Or.inr rfl
  | a :: as, b :: bs => by
    simp only [strLe]
    rcases Nat.lt_trichotomy a.toNat b.toNat with h | h | h
    · left
      rw [if_pos h]
    · rw [if_neg (by omega), if_neg (by omega), if_neg (by omega), if_neg (by omega)]
      exact strLe_total as bs
    · right
      rw [if_pos h]

theorem strLe_trans : ∀ a b c : Str, strLe a b = true → strLe b c = true →
    strLe a c = true
  | [], _, _, _, _ => rfl
  | _ :: _, [], _, h1, _ => by simp [strLe] at h1
  | _ :: _, _ :: _, [], _, h2 => by simp [strLe] at h2
  | a :: as, b :: bs, c :: cs, h1, h2 => by
    simp only [strLe] at h1 h2 ⊢
    split_ifs at h1 h2 ⊢ <;>
      first
        | rfl
        | omega
        | exact strLe_trans as bs cs h1 h2

theorem strLe_antisymm : ∀ a b : Str, strLe a b = true → strLe b a = true → a = b
  | [], [], _, _ => rfl
  | [], _ :: _, _, h2 => by simp [strLe] at h2
  | _ :: _, [], h1, _ => by simp [strLe] at h1
  | a :: as, b :: bs, h1, h2 => by
    simp only [strLe] at h1 h2
    split_ifs at h1 h2 <;>
      first
        | omega
        | simp at h1
        | simp at h2
        | (rename_i hab hba
           rw [char_toNat_inj (by omega : a.toNat = b.toNat),
             strLe_antisymm as bs h1 h2])

/-- Order of the repacked records, by archive path. -/
def recLe (x y : FileRec) : Prop := strLe x.1 y.1 = true

theorem insertRec_perm (r : FileRec) : ∀ l, (insertRec r l).Perm (r :: l)
  | [] => List.Perm.refl _
  | g :: gs => by
    rw [insertRec]
    by_cases h : strLe r.1 g.1 = true
    · rw [if_pos h]
    · rw [if_neg h]
      exact ((insertRec_perm r gs).cons g).trans (List.Perm.swap r g gs)

theorem sortRecs_perm : ∀ l, (sortRecs l).Perm l
  | [] => List.Perm.refl _
  | r :: rs => (insertRec_perm r (sortRecs rs)).trans ((sortRecs_perm rs).cons r)

theorem insertRec_sorted (r : FileRec) :
    ∀ l, l.Pairwise recLe → (insertRec r l).Pairwise recLe
  | [], _ => by simp [insertRec]
  | g :: gs, h => by
    rw [insertRec]
    obtain ⟨hg, hgs⟩ := List.pairwise_cons.mp h
    by_cases hle : strLe r.1 g.1 = true
    · rw [if_pos hle]
      refine List.pairwise_cons.mpr ⟨?_, h⟩
      intro z hz
      rcases List.mem_cons.mp hz with rfl | hz2
      · exact hle
      · exact strLe_trans _ _ _ hle (hg z hz2)
    · rw [if_neg hle]
      refine List.pairwise_cons.mpr ⟨?_, insertRec_sorted r gs hgs⟩
      intro z hz
      have hz2 := (insertRec_perm r gs).mem_iff.mp hz
      rcases List.mem_cons.mp hz2 with rfl | hz3
      · rcases strLe_total g.1 z.1 with hgood | hbad
        · exact hgood
        · exact absurd hbad hle
      · exact hg z hz3

theorem sortRecs_sorted : ∀ l : List FileRec, (sortRecs l).Pairwise recLe
  | [] => List.Pairwise.nil
  | r :: rs => insertRec_sorted r (sortRecs rs) (sortRecs_sorted rs)

theorem sorted_nodup_eq : ∀ l₁ l₂ : List FileRec, l₁.Perm l₂ →
    l₁.Pairwise recLe → l₂.Pairwise recLe →
    (l₁.map fun r => r.1).Nodup → l₁ = l₂
  | [], l₂, hperm, _, _, _ => List.Perm.nil_eq hperm
  | x :: xs, [], hperm, _, _, _ => by
    exact absurd (List.Perm.nil_eq hperm.symm) (by simp)
  | x :: xs, y :: ys, hperm, h1, h2, hnd => by
    obtain ⟨hx1, hxs1⟩ := List.pairwise_cons.mp h1
    obtain ⟨hy2, hys2⟩ := List.pairwise_cons.mp h2
    have hxy : x = y := by
      have hxmem : x ∈ y :: ys := hperm.mem_iff.mp (List.mem_cons_self x xs)
      have hymem : y ∈ x :: xs := hperm.mem_iff.mpr (List.mem_cons_self y ys)
      rcases List.mem_cons.mp hxmem with rfl | hxin
      · rfl
      rcases List.mem_cons.mp hymem with rfl | hyin
      · rfl
      have hk : x.1 = y.1 := strLe_antisymm _ _ (hx1 y hyin) (hy2 x hxin)
      exact List.inj_on_of_nodup_map hnd (List.mem_cons_self x xs)
        (List.mem_cons_of_mem x hyin) hk
    subst hxy
    rw [sorted_nodup_eq xs ys hperm.cons_inv hxs1 hys2
      (by simpa using (List.nodup_cons.mp (by simpa using hnd)).2)]

end SortLemmas

/-- C4, counterexample.  Two extract-then-repack runs on byte-identical
input packages at different wall-clock times produce different outputs:
the extracted files carry the extraction time, which `zipfile` stores in
every written entry. -/
theorem C4_deterministic_repack_counterexample :
    extractRepack (fun b => b) 100 [((lstr "xl/media/image1.png"), [1, 2])] ≠
      extractRepack (fun b => b) 200 [((lstr "xl/media/image1.png"), [1, 2])] := by
  decide

/-- C4, amended.  The repacker emits its entries in lexicographic
archive-path order, and its output is a function of the set of
(path, mtime, bytes) records alone — independent of the order the
directory scan produced them in (for duplicate-free path sets); but the
entries include per-file modification times, so byte-identity across
runs requires equal extraction times (see the counterexample). -/
theorem C4_deterministic_repack (deflate : Bytes → Bytes) (now : Nat)
    (files files2 : List FileRec) (pkg : List (Str × Bytes))
    (hperm : files.Perm files2)
    (hnodup : (files.map fun r => r.1).Nodup) :
    List.Pairwise (fun e1 e2 : ZEntry => strLe e1.arcname e2.arcname = true)
      (rezipMaxCompress deflate files) ∧
    rezipMaxCompress deflate files = rezipMaxCompress deflate files2 ∧
    List.Pairwise (fun e1 e2 : ZEntry => strLe e1.arcname e2.arcname = true)
      (extractRepack deflate now pkg) := by
  have hsortpair : ∀ l : List FileRec,
      List.Pairwise (fun e1 e2 : ZEntry => strLe e1.arcname e2.arcname = true)
        (rezipMaxCompress deflate l) := by
    intro l
    rw [rezipMaxCompress, List.pairwise_map]
    exact sortRecs_sorted l
  refine ⟨hsortpair files, ?_, hsortpair (unzipToTemp now pkg)⟩
  rw [rezipMaxCompress, rezipMaxCompress]
  congr 1
  apply sorted_nodup_eq
  · exact (sortRecs_perm files).trans (hperm.trans (sortRecs_perm files2).symm)
  · exact sortRecs_sorted files
  · exact sortRecs_sorted files2
  · exact ((sortRecs_perm files).map fun r => r.1).nodup_iff.mpr hnodup

/-- C4, witness: the amended theorem at two concrete scans of the same
two-file tree in swapped order. -/
theorem C4_deterministic_repack_witness :
    ([((lstr "b.xml"), 5, [1]), ((lstr "a.xml"), 5, [2])] : List FileRec).Perm
      [((lstr "a.xml"), 5, [2]), ((lstr "b.xml"), 5, [1])] ∧
    rezipMaxCompress (fun b => b) [((lstr "b.xml"), 5, [1]), ((lstr "a.xml"), 5, [2])] =
      rezipMaxCompress (fun b => b) [((lstr "a.xml"), 5, [2]), ((lstr "b.xml"), 5, [1])] := by
  have hmain := C4_deterministic_repack (fun b => b) 0
    [((lstr "b.xml"), 5, [1]), ((lstr "a.xml"), 5, [2])]
    [((lstr "a.xml"), 5, [2]), ((lstr "b.xml"), 5, [1])]
    [] (by decide) (by decide)
  exact ⟨by decide, hmain.2.1⟩

/-- ASCII lowering on codepoints, the effect of the `re.I` flag on the
literal patterns of `surgical_filter_defined_names_text`. -/
def lowN (c : Char) : Nat :=
  if 65 ≤ c.toNat && c.toNat ≤ 90 then c.toNat + 32 else c.toNat

/-- Case-insensitive literal prefix match (a regex literal under `re.I`). -/
def ciPre : Str → Str → Bool
  | [], _ => true
  | _ :: _, [] => false
  | p :: ps, c :: cs => (lowN p == lowN c) && ciPre ps cs

/-- Python regex `\w` on the ASCII range: letters, digits, underscore. -/
def isWordChar (c : Char) : Bool := c.isAlphanum || c == '_'

/-- Index of the first occurrence of a character. -/
def findChar (ch : Char) : Str → Option Nat
  | [] => none
  | c :: cs => if c == ch then some 0 else (findChar ch cs).map (fun i => i + 1)

/-- Index of the first case-insensitive occurrence of a literal pattern. -/
def findCI (pat : Str) : Str → Option Nat
  | [] => none
  | c :: cs => if ciPre pat (c :: cs) then some 0
               else (findCI pat cs).map (fun i => i + 1)

/-- Attempt of the regex `<tag-literal>\b[^>]*>` at the start of `s`:
the literal matches case-insensitively, the following character is not a
word character, and a closing angle bracket exists; returns the length
of the whole matched open tag. -/
def openTagMatch (pat : Str) (s : Str) : Option Nat :=
  if ciPre pat s then
    match s.drop pat.length with
    | [] => none
    | c :: rest =>
      if isWordChar c then none
      else
        match findChar '>' (c :: rest) with
        | none => none
        | some j => some (pat.length + j + 1)
  else none

/-- Leftmost match of `(<definedNames\b[^>]*>)(.*?)(</definedNames>)`
(line 120 of gui_clean_defined_names_desktop_date.py): scans start
positions left to right; at each, the open tag must match and a closing
tag must follow.  Returns (start index, open-tag length, body length). -/
def findBlock : Str → Option (Nat × Nat × Nat)
  | [] => none
  | c :: cs =>
    match openTagMatch (lstr "<definednames") (c :: cs) with
    | some hl =>
      match findCI (lstr "</definednames>") (List.drop hl (c :: cs)) with
      | some k => some (0, hl, k)
      | none => (findBlock cs).map (fun t => (t.1 + 1, t.2.1, t.2.2))
    | none => (findBlock cs).map (fun t => (t.1 + 1, t.2.1, t.2.2))

/-- The test `<definedName\b` at the current position: the literal
matches case-insensitively and the following character, if any, is not a
word character. -/
def entryBoundaryHere (s : Str) : Bool :=
  ciPre (lstr "<definedname") s &&
    (match s.drop 12 with
     | [] => true
     | d :: _ => !isWordChar d)

/-- Count of `re.findall(r'<definedName\b', body, re.I)` (line 126). -/
def countOpens : Str → Nat
  | [] => 0
  | c :: cs => (if entryBoundaryHere (c :: cs) then 1 else 0) + countOpens cs

/-- Fuel-indexed worker for `scanEntries`. -/
def scanEntriesF : Nat → Str → List Str
  | 0, _ => []
  | _ + 1, [] => []
  | fuel + 1, c :: cs =>
    match openTagMatch (lstr "<definedname") (c :: cs) with
    | some hl =>
      match findCI (lstr "</definedname>") (List.drop hl (c :: cs)) with
      | some k =>
        List.take (hl + k + 14) (c :: cs) ::
          scanEntriesF fuel (List.drop (hl + k + 14) (c :: cs))
      | none => scanEntriesF fuel cs
    | none => scanEntriesF fuel cs

/-- `re.finditer(r'(<definedName\b[^>]*>.*?</definedName>)', body, re.S|re.I)`
(line 129): the non-overlapping entry chunks, in order. -/
def scanEntries (s : Str) : List Str := scanEntriesF s.length s

/-- Attempt of `name\s*=\s*"([^"]*?)"` at the start of `s`. -/
def nameAttrAt (s : Str) : Option Str :=
  if ciPre (lstr "name") s then
    match (List.drop 4 s).dropWhile (fun c => c.isWhitespace) with
    | '=' :: r3 =>
      match r3.dropWhile (fun c => c.isWhitespace) with
      | '"' :: r5 =>
        match findChar '"' r5 with
        | some q => some (r5.take q)
        | none => none
      | _ => none
    | _ => none
  else none

/-- `re.search(r'\bname\s*=\s*"([^"]*?)"', chunk, re.I)` (line 131):
scan left to right, trying the attribute match at every position whose
preceding character is not a word character. -/
def findNameAttr : Str → Bool → Option Str
  | [], _ => none
  | c :: cs, prevWord =>
    if !prevWord then
      match nameAttrAt (c :: cs) with
      | some nm => some nm
      | none => findNameAttr cs (isWordChar c)
    else findNameAttr cs (isWordChar c)

/-- `KEEP_NAMES` of gui_clean_defined_names_desktop_date.py line 18. -/
def KEEP_NAMES : List Str :=
  [lstr "_xlnm.Print_Area", lstr "_xlnm.Print_Titles",
   lstr "Print_Area", lstr "Print_Titles"]

/-- The keep decision for one entry chunk (lines 131-134): the first
name attribute match, compared exactly against the allow-list. -/
def keepChunk (chunk : Str) : Bool :=
  match findNameAttr chunk false with
  | some nm => KEEP_NAMES.any (fun kn => kn == nm)
  | none => false

/-- The stats dictionary returned by the filter. -/
structure FilterStats where
  total : Nat
  kept : Nat
  removed : Nat
deriving DecidableEq

/-- `surgical_filter_defined_names_text` (lines 111-145): filter the
`<definedNames>` span in place, keep only allow-listed entries, drop the
whole block if nothing remains, and leave all bytes outside the matched
span untouched. -/
def surgicalFilterDefinedNames (text : Str) : Str × FilterStats :=
  match findBlock text with
  | none => (text, { total := 0, kept := 0, removed := 0 })
  | some (i, hl, k) =>
    let head := (text.drop i).take hl
    let body := (text.drop (i + hl)).take k
    let tail := (text.drop (i + hl + k)).take 15
    let total := countOpens body
    let keptChunks := (scanEntries body).filter keepChunk
    let kept := keptChunks.length
    let removed := total - kept
    if keptChunks.isEmpty then
      (text.take i ++ text.drop (i + hl + k + 15),
        { total := total, kept := kept, removed := removed })
    else
      (text.take i ++ head ++ keptChunks.flatten ++ tail ++
        text.drop (i + hl + k + 15),
        { total := total, kept := kept, removed := removed })

section FilterLemmas

theorem ciPre_append_left {pat x : Str} (y : Str) (h : pat.length ≤ x.length) :
    ciPre pat (x ++ y) = ciPre pat x := by
  induction pat generalizing x with
  | nil => simp [ciPre]
  | cons a ps ih =>
    cases x with
    | nil => simp at h
    | cons c cs =>
      simp only [List.cons_append, ciPre, List.append_eq]
      rw [ih (by simpa using Nat.le_of_succ_le_succ (by simpa using h))]

theorem ciPre_take_mono : ∀ (m : Nat) (p s : Str), ciPre p s = true →
    ciPre (p.take m) (s.take m) = true
  | 0, _, _, _ => rfl
  | _ + 1, [], _, _ => rfl
  | _ + 1, _ :: _, [], h => by simp [ciPre] at h
  | m + 1, a :: ps, c :: cs, h => by
    simp only [ciPre, Bool.and_eq_true] at h
    simp only [List.take_succ_cons, ciPre, Bool.and_eq_true]
    exact ⟨h.1, ciPre_take_mono m ps cs h.2⟩

theorem ciPre_false_of_take {p s : Str} (m : Nat)
    (h : ciPre (p.take m) (s.take m) = false) : ciPre p s = false := by
  cases hps : ciPre p s with
  | false => rfl
  | true => exact absurd (ciPre_take_mono m p s hps) (by simp [h])

/-- The effect of a text span that the character scan of `findChar`
passes over entirely. -/
def SkipsChar (ch : Char) (x : Str) : Prop :=
  ∀ y, findChar ch (x ++ y) = (findChar ch y).map (fun i => i + x.length)

theorem skipsChar_of_all {ch : Char} :
    ∀ {x : Str}, (∀ c ∈ x, (c == ch) = false) → SkipsChar ch x
  | [], _ => by
    intro y
    simp only [List.nil_append, List.length_nil]
    cases h : findChar ch y <;> simp [h]
  | c :: cs, h => by
    intro y
    have hc : (c == ch) = false := h c (List.mem_cons_self c cs)
    have ih := skipsChar_of_all (fun d hd => h d (List.mem_cons_of_mem c hd)) y
    simp only [List.cons_append, findChar, hc, Bool.false_eq_true, if_false,
      List.append_eq, ih, Option.map_map, List.length_cons]
    cases hy : findChar ch y with
    | none => rfl
    | some v =>
      show some (v + cs.length + 1) = some (v + (cs.length + 1))
      exact congrArg some (by omega)

theorem findChar_self (ch : Char) (t : Str) : findChar ch (ch :: t) = some 0 := by
  simp [findChar]

/-- The effect of a text span that the case-insensitive literal scan of
`findCI` passes over entirely. -/
def SkipsCI (pat x : Str) : Prop :=
  ∀ y, findCI pat (x ++ y) = (findCI pat y).map (fun i => i + x.length)

theorem skipsCI_nil (pat : Str) : SkipsCI pat [] := by
  intro y
  simp only [List.nil_append, List.length_nil]
  cases h : findCI pat y <;> simp [h]

theorem skipsCI_append {pat x z : Str} (h1 : SkipsCI pat x) (h2 : SkipsCI pat z) :
    SkipsCI pat (x ++ z) := by
  intro y
  rw [List.append_assoc, h1, h2, Option.map_map]
  simp only [List.length_append]
  cases hy : findCI pat y with
  | none => rfl
  | some v =>
    show some (v + z.length + x.length) = some (v + (x.length + z.length))
    exact congrArg some (by omega)

theorem skipsCI_of_no_head {p0 : Char} {pt : Str} :
    ∀ {x : Str}, (∀ c ∈ x, (lowN p0 == lowN c) = false) → SkipsCI (p0 :: pt) x
  | [], _ => skipsCI_nil _
  | c :: cs, h => by
    intro y
    have hc : ciPre (p0 :: pt) (c :: (cs ++ y)) = false := by
      simp [ciPre, h c (List.mem_cons_self c cs)]
    have ih0 : SkipsCI (p0 :: pt) cs :=
      skipsCI_of_no_head (fun d hd => h d (List.mem_cons_of_mem c hd))
    have ih := ih0 y
    simp only [List.cons_append, findCI, hc, Bool.false_eq_true, if_false,
      List.append_eq, ih, Option.map_map, List.length_cons]
    cases hy : findCI (p0 :: pt) y with
    | none => rfl
    | some v =>
      show some (v + cs.length + 1) = some (v + (cs.length + 1))
      exact congrArg some (by omega)

theorem skipsCI_block {p0 : Char} {pt : Str} {x : Str} (c : Char) (cs : Str)
    (hx : x = c :: cs)
    (h0 : ∀ y, ciPre (p0 :: pt) (x ++ y) = false)
    (htail : ∀ d ∈ cs, (lowN p0 == lowN d) = false) :
    SkipsCI (p0 :: pt) x := by
  subst hx
  intro y
  have hc := h0 y
  rw [List.cons_append] at hc
  have ih0 : SkipsCI (p0 :: pt) cs := skipsCI_of_no_head htail
  have ih := ih0 y
  simp only [List.cons_append, findCI, hc, Bool.false_eq_true, if_false,
    List.append_eq, ih, Option.map_map, List.length_cons]
  cases hy : findCI (p0 :: pt) y with
  | none => rfl
  | some v =>
    show some (v + cs.length + 1) = some (v + (cs.length + 1))
    exact congrArg some (by omega)

theorem ciPre_all_false_of_long {pat x : Str} (hlen : pat.length ≤ x.length)
    (h : ciPre pat x = false) : ∀ y, ciPre pat (x ++ y) = false := by
  intro y
  rw [ciPre_append_left y hlen]
  exact h

theorem ciPre_all_false_of_take {pat x : Str} (m : Nat) (hm : m ≤ x.length)
    (h : ciPre (pat.take m) (x.take m) = false) :
    ∀ y, ciPre pat (x ++ y) = false := by
  intro y
  apply ciPre_false_of_take m
  rw [List.take_append_of_le_length hm]
  exact h

end FilterLemmas

/-- One definedName element of the workbook XML: the name attribute
value, any further attribute text, and the element content. -/
structure DNEntry where
  nm : Str
  attrs : Str
  content : Str

/-- Rendering of one entry in the canonical double-quoted form the host
application writes. -/
def renderEntry (e : DNEntry) : Str :=
  lstr "<definedName name=\"" ++ e.nm ++ lstr "\"" ++ e.attrs ++ lstr ">" ++
    e.content ++ lstr "</definedName>"

/-- A name character: no angle brackets, no double quote. -/
def nmCharOk (c : Char) : Bool :=
  !(lowN c == 60) && !(lowN c == 62) && !(lowN c == 34)

/-- An attribute-text character: no angle brackets. -/
def attrCharOk (c : Char) : Bool := !(lowN c == 60) && !(lowN c == 62)

/-- A content character: no opening angle bracket. -/
def contentCharOk (c : Char) : Bool := !(lowN c == 60)

/-- Well-formedness of one rendered entry. -/
def entryOk (e : DNEntry) : Bool :=
  e.nm.all nmCharOk && e.attrs.all attrCharOk && e.content.all contentCharOk

/-- The body of a canonical definedNames block. -/
def renderEntries (entries : List DNEntry) : Str :=
  (entries.map renderEntry).flatten

/-- A workbook document around a canonical definedNames block. -/
def renderDoc (pre : Str) (entries : List DNEntry) (post : Str) : Str :=
  pre ++ lstr "<definedNames>" ++ renderEntries entries ++
    lstr "</definedNames>" ++ post

/-- The allow-list decision on a name value. -/
def keepName (nm : Str) : Bool := KEEP_NAMES.any fun kn => kn == nm

section RenderLemmas

theorem dnClose_cons : lstr "</definednames>" = '<' :: lstr "/definednames>" := rfl

theorem dnOpen_cons : lstr "<definednames" = '<' :: lstr "definednames" := rfl

theorem dnEntry_cons : lstr "<definedname" = '<' :: lstr "definedname" := rfl

theorem dnEntryClose_cons : lstr "</definedname>" = '<' :: lstr "/definedname>" := rfl

theorem entryOk_parts {e : DNEntry} (h : entryOk e = true) :
    (∀ c ∈ e.nm, nmCharOk c = true) ∧ (∀ c ∈ e.attrs, attrCharOk c = true) ∧
    (∀ c ∈ e.content, contentCharOk c = true) := by
  simp only [entryOk, Bool.and_eq_true, List.all_eq_true] at h
  exact ⟨h.1.1, h.1.2, h.2⟩

theorem nmCharOk_parts {c : Char} (h : nmCharOk c = true) :
    (lowN c == 60) = false ∧ (lowN c == 62) = false ∧ (lowN c == 34) = false := by
  simp only [nmCharOk, Bool.and_eq_true, Bool.not_eq_true'] at h
  exact ⟨h.1.1, h.1.2, h.2⟩

theorem attrCharOk_parts {c : Char} (h : attrCharOk c = true) :
    (lowN c == 60) = false ∧ (lowN c == 62) = false := by
  simp only [attrCharOk, Bool.and_eq_true, Bool.not_eq_true'] at h
  exact ⟨h.1, h.2⟩

theorem contentCharOk_parts {c : Char} (h : contentCharOk c = true) :
    (lowN c == 60) = false := by
  simp only [contentCharOk, Bool.not_eq_true'] at h
  exact h

theorem no_head_of_not60 {c : Char} (h : (lowN c == 60) = false) :
    (lowN '<' == lowN c) = false := by
  rw [show lowN '<' = 60 from by decide]
  exact beq_eq_false_iff_ne.mpr fun he => beq_eq_false_iff_ne.mp h he.symm

theorem beq_gt_false_of_not62 {c : Char} (h : (lowN c == 62) = false) :
    (c == '>') = false := by
  cases hcg : c == '>' with
  | false => rfl
  | true =>
    have hc : c = '>' := eq_of_beq hcg
    subst hc
    exact absurd h (by decide)

theorem beq_quote_false_of_not34 {c : Char} (h : (lowN c == 34) = false) :
    (c == '"') = false := by
  cases hcg : c == '"' with
  | false => rfl
  | true =>
    have hc : c = '"' := eq_of_beq hcg
    subst hc
    exact absurd h (by decide)

theorem skipsCI_close_render {e : DNEntry} (h : entryOk e = true) :
    SkipsCI (lstr "</definednames>") (renderEntry e) := by
  obtain ⟨hnm, hattrs, hcontent⟩ := entryOk_parts h
  rw [dnClose_cons]
  have hre : renderEntry e = lstr "<definedName name=\"" ++
      ((e.nm ++ lstr "\"" ++ e.attrs ++ lstr ">" ++ e.content) ++
        lstr "</definedName>") := by
    simp [renderEntry, List.append_assoc]
  rw [hre]
  apply skipsCI_append
  · exact skipsCI_block '<' (lstr "definedName name=\"") rfl
      (ciPre_all_false_of_long (by decide) (by decide)) (by decide)
  apply skipsCI_append
  · apply skipsCI_of_no_head
    intro d hd
    simp only [List.mem_append] at hd
    rcases hd with ⟨⟨⟨hd | hd⟩ | hd⟩ | hd⟩ | hd
    · exact no_head_of_not60 (nmCharOk_parts (hnm d hd)).1
    · have hd2 : d = '"' := by
        rw [show lstr "\"" = ['"'] from rfl] at hd
        simpa using hd
      subst hd2
      decide
    · exact no_head_of_not60 (attrCharOk_parts (hattrs d hd)).1
    · have hd2 : d = '>' := by
        rw [show lstr ">" = ['>'] from rfl] at hd
        simpa using hd
      subst hd2
      decide
    · exact no_head_of_not60 (contentCharOk_parts (hcontent d hd))
  · exact skipsCI_block '<' (lstr "/definedName>") rfl
      (ciPre_all_false_of_take 14 (by decide) (by decide)) (by decide)

theorem skipsCI_close_renderEntries {entries : List DNEntry}
    (h : ∀ e ∈ entries, entryOk e = true) :
    SkipsCI (lstr "</definednames>") (renderEntries entries) := by
  induction entries with
  | nil => exact skipsCI_nil _
  | cons e rest ih =>
    have hflat : renderEntries (e :: rest) = renderEntry e ++ renderEntries rest := by
      rw [renderEntries, List.map_cons, List.flatten_cons]
      rfl
    rw [hflat]
    exact skipsCI_append
      (skipsCI_close_render (h e (List.mem_cons_self e rest)))
      (ih fun e2 he2 => h e2 (List.mem_cons_of_mem e he2))

theorem findCI_close_at_block (entries : List DNEntry) (post : Str)
    (h : ∀ e ∈ entries, entryOk e = true) :
    findCI (lstr "</definednames>")
        (renderEntries entries ++ (lstr "</definedNames>" ++ post)) =
      some (renderEntries entries).length := by
  rw [skipsCI_close_renderEntries h]
  have hhit : findCI (lstr "</definednames>") (lstr "</definedNames>" ++ post) =
      some 0 := by
    rw [show lstr "</definedNames>" ++ post =
      '<' :: (lstr "/definedNames>" ++ post) from rfl]
    have hci : ciPre (lstr "</definednames>")
        ('<' :: (lstr "/definedNames>" ++ post)) = true := by
      rw [show '<' :: (lstr "/definedNames>" ++ post) =
        lstr "</definedNames>" ++ post from rfl]
      rw [ciPre_append_left post (by decide)]
      decide
    rw [findCI, hci]
    simp
  rw [hhit]
  exact congrArg some (Nat.zero_add _)

theorem openTagMatch_dnOpen (rest : Str) :
    openTagMatch (lstr "<definednames") (lstr "<definedNames>" ++ rest) =
      some 14 := by
  rw [openTagMatch]
  have hci : ciPre (lstr "<definednames") (lstr "<definedNames>" ++ rest) = true := by
    rw [ciPre_append_left rest (by decide)]
    decide
  rw [hci]
  have hdrop : List.drop (lstr "<definednames").length (lstr "<definedNames>" ++ rest) =
      '>' :: rest := by
    rw [show (lstr "<definednames").length = 13 from rfl]
    rw [show lstr "<definedNames>" ++ rest = ('<' :: 'd' :: 'e' :: 'f' :: 'i' :: 'n' ::
      'e' :: 'd' :: 'N' :: 'a' :: 'm' :: 'e' :: 's' :: []) ++ ('>' :: rest) from rfl]
    rw [List.drop_left' (by decide)]
  rw [hdrop]
  simp only [if_true]
  rw [show isWordChar '>' = false from by decide]
  simp only [Bool.false_eq_true, if_false]
  rw [findChar_self]
  rfl

theorem findBlock_shift (x y : Str)
    (h : ∀ j, j < x.length → ciPre (lstr "<definednames") ((x ++ y).drop j) = false) :
    findBlock (x ++ y) =
      (findBlock y).map (fun t => (t.1 + x.length, t.2.1, t.2.2)) := by
  induction x with
  | nil =>
    simp only [List.nil_append, List.length_nil]
    cases hy : findBlock y with
    | none => rfl
    | some t => simp
  | cons c cs ih =>
    have h0 : ciPre (lstr "<definednames") (c :: (cs ++ y)) = false := by
      have := h 0 (by simp)
      rwa [List.cons_append, List.drop_zero] at this
    have hopen : openTagMatch (lstr "<definednames") (c :: (cs ++ y)) = none := by
      rw [openTagMatch, h0]
      simp
    rw [List.cons_append, findBlock, hopen]
    rw [ih fun j hj => by
      have := h (j + 1) (by simpa using Nat.succ_lt_succ hj)
      rwa [List.cons_append, List.drop_succ_cons] at this]
    cases hy : findBlock y with
    | none => rfl
    | some t =>
      simp only [Option.map_some, Option.map_map, List.length_cons]
      show some _ = some _
      exact congrArg some (by
        show (t.1 + cs.length + 1, t.2.1, t.2.2) = (t.1 + (cs.length + 1), t.2.1, t.2.2)
        rw [Nat.add_assoc])

theorem findBlock_hit {s : Str} {hl k : Nat}
    (hopen : openTagMatch (lstr "<definednames") s = some hl)
    (hclose : findCI (lstr "</definednames>") (s.drop hl) = some k) :
    findBlock s = some (0, hl, k) := by
  cases s with
  | nil =>
    rw [openTagMatch] at hopen
    rw [show ciPre (lstr "<definednames") [] = false from by decide] at hopen
    simp at hopen
  | cons c cs =>
    rw [findBlock, hopen]
    dsimp only
    rw [hclose]

theorem openTagMatch_entryHead (nm attrs rst : Str)
    (hnm : ∀ c ∈ nm, nmCharOk c = true)
    (hattrs : ∀ c ∈ attrs, attrCharOk c = true) :
    openTagMatch (lstr "<definedname")
      (lstr "<definedName name=\"" ++ (nm ++ (lstr "\"" ++ (attrs ++ ('>' :: rst))))) =
      some (21 + nm.length + attrs.length) := by
  rw [openTagMatch]
  have hci : ciPre (lstr "<definedname")
      (lstr "<definedName name=\"" ++ (nm ++ (lstr "\"" ++ (attrs ++ ('>' :: rst))))) =
      true := by
    rw [ciPre_append_left _ (by decide)]
    decide
  rw [hci]
  simp only [if_true]
  have hdrop : List.drop (lstr "<definedname").length
      (lstr "<definedName name=\"" ++ (nm ++ (lstr "\"" ++ (attrs ++ ('>' :: rst))))) =
      ' ' :: (lstr "name=\"" ++ (nm ++ (lstr "\"" ++ (attrs ++ ('>' :: rst))))) := by
    rw [show (lstr "<definedname").length = 12 from rfl]
    rw [show lstr "<definedName name=\"" ++ (nm ++ (lstr "\"" ++ (attrs ++ ('>' :: rst)))) =
      lstr "<definedName" ++ (lstr " name=\"" ++ (nm ++ (lstr "\"" ++ (attrs ++ ('>' :: rst)))))
      from by simp [lstr]]
    rw [List.drop_left' (by decide)]
    rfl
  rw [hdrop]
  dsimp only
  rw [show isWordChar ' ' = false from by decide]
  simp only [Bool.false_eq_true, if_false]
  have hregroup : ' ' :: (lstr "name=\"" ++ (nm ++ (lstr "\"" ++ (attrs ++ ('>' :: rst))))) =
      (lstr " name=\"" ++ (nm ++ (lstr "\"" ++ attrs))) ++ ('>' :: rst) := by
    simp [lstr, List.append_assoc]
  rw [hregroup]
  have hskip0 : SkipsChar '>' (lstr " name=\"" ++ (nm ++ (lstr "\"" ++ attrs))) :=
    skipsChar_of_all
    (by
      intro c hc
      simp only [List.mem_append] at hc
      rcases hc with hc | hc | hc | hc
      · revert c
        decide
      · exact beq_gt_false_of_not62 (nmCharOk_parts (hnm c hc)).2.1
      · rw [show lstr "\"" = ['"'] from rfl] at hc
        have hc2 : c = '"' := by simpa using hc
        subst hc2
        decide
      · exact beq_gt_false_of_not62 (attrCharOk_parts (hattrs c hc)).2)
  have hskip := hskip0 ('>' :: rst)
  rw [hskip, findChar_self]
  show some _ = some _
  refine congrArg some ?_
  simp only [List.length_append]
  rw [show (lstr " name=\"").length = 7 from rfl, show (lstr "\"").length = 1 from rfl,
    show (lstr "<definedname").length = 12 from rfl]
  omega

theorem findCI_entryClose (content rest : Str)
    (hcontent : ∀ c ∈ content, contentCharOk c = true) :
    findCI (lstr "</definedname>") (content ++ (lstr "</definedName>" ++ rest)) =
      some content.length := by
  rw [dnEntryClose_cons]
  have hsk : SkipsCI ('<' :: lstr "/definedname>") content :=
    skipsCI_of_no_head
      (fun c hc => no_head_of_not60 (contentCharOk_parts (hcontent c hc)))
  rw [hsk (lstr "</definedName>" ++ rest)]
  have hhit : findCI ('<' :: lstr "/definedname>") (lstr "</definedName>" ++ rest) =
      some 0 := by
    rw [show lstr "</definedName>" ++ rest = '<' :: (lstr "/definedName>" ++ rest)
      from rfl, findCI]
    have hci : ciPre ('<' :: lstr "/definedname>")
        ('<' :: (lstr "/definedName>" ++ rest)) = true := by
      rw [show '<' :: (lstr "/definedName>" ++ rest) = lstr "</definedName>" ++ rest
        from rfl]
      rw [show ('<' :: lstr "/definedname>") = lstr "</definedname>" from rfl]
      rw [ciPre_append_left rest (by decide)]
      decide
    rw [hci]
    simp
  rw [hhit]
  exact congrArg some (Nat.zero_add _)

theorem renderEntry_length (e : DNEntry) :
    (renderEntry e).length =
      35 + e.nm.length + e.attrs.length + e.content.length := by
  rw [renderEntry]
  simp only [List.length_append]
  rw [show (lstr "<definedName name=\"").length = 19 from rfl,
    show (lstr "\"").length = 1 from rfl, show (lstr ">").length = 1 from rfl,
    show (lstr "</definedName>").length = 14 from rfl]
  omega

theorem scanEntriesF_eq_of_le : ∀ f₁ f₂ s, s.length ≤ f₁ → s.length ≤ f₂ →
    scanEntriesF f₁ s = scanEntriesF f₂ s := by
  intro f₁
  induction f₁ with
  | zero =>
    intro f₂ s h1 _
    have hnil : s = [] := List.eq_nil_of_length_eq_zero (by omega)
    subst hnil
    cases f₂ <;> rfl
  | succ f ih =>
    intro f₂ s h1 h2
    cases s with
    | nil => cases f₂ <;> rfl
    | cons c cs =>
      cases f₂ with
      | zero => simp at h2
      | succ g =>
        simp only [scanEntriesF]
        cases hopen : openTagMatch (lstr "<definedname") (c :: cs) with
        | none =>
          dsimp only
          exact ih g cs (by simp only [List.length_cons] at h1; omega)
            (by simp only [List.length_cons] at h2; omega)
        | some hl =>
          dsimp only
          cases hclose : findCI (lstr "</definedname>") (List.drop hl (c :: cs)) with
          | none =>
            dsimp only
            exact ih g cs (by simp only [List.length_cons] at h1; omega)
              (by simp only [List.length_cons] at h2; omega)
          | some k =>
            dsimp only
            congr 1
            apply ih
            · rw [List.length_drop]
              simp only [List.length_cons] at h1 ⊢
              omega
            · rw [List.length_drop]
              simp only [List.length_cons] at h2 ⊢
              omega

theorem openTagMatch_render {e : DNEntry} (h : entryOk e = true) (rest : Str) :
    openTagMatch (lstr "<definedname") (renderEntry e ++ rest) =
      some (21 + e.nm.length + e.attrs.length) := by
  obtain ⟨hnm, hattrs, _⟩ := entryOk_parts h
  have harr : renderEntry e ++ rest =
      lstr "<definedName name=\"" ++ (e.nm ++ (lstr "\"" ++ (e.attrs ++
        ('>' :: (e.content ++ (lstr "</definedName>" ++ rest)))))) := by
    rw [renderEntry]
    simp only [List.append_assoc]
    rfl
  rw [harr]
  exact openTagMatch_entryHead _ _ _ hnm hattrs

theorem scanEntries_cons_render {e : DNEntry} (h : entryOk e = true) (rest : Str) :
    ∀ fuel, (renderEntry e ++ rest).length ≤ fuel →
      scanEntriesF fuel (renderEntry e ++ rest) =
        renderEntry e :: scanEntries rest := by
  obtain ⟨hnm, hattrs, hcontent⟩ := entryOk_parts h
  intro fuel hfuel
  have hrl := renderEntry_length e
  have hlen : (renderEntry e ++ rest).length =
      35 + e.nm.length + e.attrs.length + e.content.length + rest.length := by
    rw [List.length_append, hrl]
  cases fuel with
  | zero => omega
  | succ f =>
    have hcons : renderEntry e ++ rest =
        '<' :: (lstr "definedName name=\"" ++ (e.nm ++ (lstr "\"" ++ (e.attrs ++
          (lstr ">" ++ (e.content ++ (lstr "</definedName>" ++ rest))))))) := by
      rw [renderEntry]
      simp only [List.append_assoc]
      rfl
    rw [hcons]
    simp only [scanEntriesF]
    rw [← hcons, openTagMatch_render h rest]
    dsimp only
    have hdrop1 : List.drop (21 + e.nm.length + e.attrs.length)
        (renderEntry e ++ rest) =
        e.content ++ (lstr "</definedName>" ++ rest) := by
      have harr2 : renderEntry e ++ rest =
          (lstr "<definedName name=\"" ++ e.nm ++ lstr "\"" ++ e.attrs ++ lstr ">") ++
            (e.content ++ (lstr "</definedName>" ++ rest)) := by
        rw [renderEntry]
        simp only [List.append_assoc]
      rw [harr2, List.drop_left']
      simp only [List.length_append]
      rw [show (lstr "<definedName name=\"").length = 19 from rfl,
        show (lstr "\"").length = 1 from rfl, show (lstr ">").length = 1 from rfl]
      omega
    rw [hdrop1, findCI_entryClose _ _ hcontent]
    dsimp only
    have htake : List.take (21 + e.nm.length + e.attrs.length + e.content.length + 14)
        (renderEntry e ++ rest) = renderEntry e := by
      rw [List.take_left']
      omega
    have hdrop2 : List.drop (21 + e.nm.length + e.attrs.length + e.content.length + 14)
        (renderEntry e ++ rest) = rest := by
      rw [List.drop_left']
      omega
    rw [htake, hdrop2]
    congr 1
    rw [scanEntries]
    apply scanEntriesF_eq_of_le
    · rw [hlen] at hfuel
      omega
    · exact le_rfl

theorem scanEntries_renderEntries {entries : List DNEntry}
    (h : ∀ e ∈ entries, entryOk e = true) :
    scanEntries (renderEntries entries) = entries.map renderEntry := by
  induction entries with
  | nil => rfl
  | cons e rest ih =>
    have hflat : renderEntries (e :: rest) = renderEntry e ++ renderEntries rest := by
      rw [renderEntries, List.map_cons, List.flatten_cons]
      rfl
    rw [hflat, scanEntries,
      scanEntries_cons_render (h e (List.mem_cons_self e rest)) _ _ le_rfl,
      ih fun e2 he2 => h e2 (List.mem_cons_of_mem e he2), List.map_cons]

/-- The effect of a text span that the entry counter passes over without
finding a match. -/
def CountSkips (x : Str) : Prop := ∀ y, countOpens (x ++ y) = countOpens y

theorem countSkips_append {x z : Str} (h1 : CountSkips x) (h2 : CountSkips z) :
    CountSkips (x ++ z) := by
  intro y
  rw [List.append_assoc, h1, h2]

theorem entryBoundaryHere_false_of_ciPre {s : Str}
    (h : ciPre (lstr "<definedname") s = false) : entryBoundaryHere s = false := by
  rw [entryBoundaryHere, h, Bool.false_and]

theorem countSkips_of_no_head {x : Str}
    (h : ∀ c ∈ x, (lowN '<' == lowN c) = false) : CountSkips x := by
  induction x with
  | nil => intro y; rfl
  | cons c cs ih =>
    intro y
    have hb : entryBoundaryHere (c :: (cs ++ y)) = false := by
      apply entryBoundaryHere_false_of_ciPre
      rw [dnEntry_cons]
      simp [ciPre, h c (List.mem_cons_self c cs)]
    rw [List.cons_append, countOpens, hb]
    simp only [Bool.false_eq_true, if_false, Nat.zero_add]
    exact ih (fun d hd => h d (List.mem_cons_of_mem c hd)) y

theorem countSkips_block {x : Str} (c : Char) (cs : Str) (hx : x = c :: cs)
    (h0 : ∀ y, entryBoundaryHere (x ++ y) = false)
    (htail : ∀ d ∈ cs, (lowN '<' == lowN d) = false) : CountSkips x := by
  subst hx
  intro y
  have hb := h0 y
  rw [List.cons_append] at hb
  rw [List.cons_append, countOpens, hb]
  simp only [Bool.false_eq_true, if_false, Nat.zero_add]
  exact countSkips_of_no_head htail y

theorem countOpens_render {e : DNEntry} (h : entryOk e = true) (rest : Str) :
    countOpens (renderEntry e ++ rest) = 1 + countOpens rest := by
  obtain ⟨hnm, hattrs, hcontent⟩ := entryOk_parts h
  have hcons : renderEntry e ++ rest =
      '<' :: (lstr "definedName name=\"" ++ (e.nm ++ (lstr "\"" ++ (e.attrs ++
        (lstr ">" ++ (e.content ++ (lstr "</definedName>" ++ rest))))))) := by
    rw [renderEntry]
    simp only [List.append_assoc]
    rfl
  have hb : entryBoundaryHere (renderEntry e ++ rest) = true := by
    rw [entryBoundaryHere]
    have hci : ciPre (lstr "<definedname") (renderEntry e ++ rest) = true := by
      have harr : renderEntry e ++ rest =
          lstr "<definedName name=\"" ++ (e.nm ++ (lstr "\"" ++ (e.attrs ++
            (lstr ">" ++ (e.content ++ (lstr "</definedName>" ++ rest)))))) := by
        rw [renderEntry]
        simp only [List.append_assoc]
      rw [harr, ciPre_append_left _ (by decide)]
      decide
    rw [hci, Bool.true_and]
    have hdrop : List.drop 12 (renderEntry e ++ rest) =
        ' ' :: (lstr "name=\"" ++ (e.nm ++ (lstr "\"" ++ (e.attrs ++ (lstr ">" ++
          (e.content ++ (lstr "</definedName>" ++ rest))))))) := by
      have harr2 : renderEntry e ++ rest =
          lstr "<definedName" ++ (lstr " name=\"" ++ (e.nm ++ (lstr "\"" ++
            (e.attrs ++ (lstr ">" ++ (e.content ++ (lstr "</definedName>" ++ rest))))))) := by
        rw [renderEntry]
        simp only [List.append_assoc]
        rfl
      rw [harr2, show (12 : Nat) = (lstr "<definedName").length from rfl,
        List.drop_left]
      rfl
    rw [hdrop]
    dsimp only
    decide
  have hskip2 : CountSkips (lstr "</definedName>") := by
    apply countSkips_block '<' (lstr "/definedName>") rfl
    · intro y
      apply entryBoundaryHere_false_of_ciPre
      rw [ciPre_append_left y (by decide)]
      decide
    · decide
  rw [hcons] at hb ⊢
  have htail : countOpens (lstr "definedName name=\"" ++ (e.nm ++ (lstr "\"" ++ (e.attrs ++
      (lstr ">" ++ (e.content ++ (lstr "</definedName>" ++ rest))))))) = countOpens rest := by
    rw [countSkips_of_no_head (x := lstr "definedName name=\"") (by decide) _]
    rw [countSkips_of_no_head (x := e.nm)
      (fun d hd => no_head_of_not60 (nmCharOk_parts (hnm d hd)).1) _]
    rw [countSkips_of_no_head (x := lstr "\"") (by decide) _]
    rw [countSkips_of_no_head (x := e.attrs)
      (fun d hd => no_head_of_not60 (attrCharOk_parts (hattrs d hd)).1) _]
    rw [countSkips_of_no_head (x := lstr ">") (by decide) _]
    rw [countSkips_of_no_head (x := e.content)
      (fun d hd => no_head_of_not60 (contentCharOk_parts (hcontent d hd))) _]
    exact hskip2 rest
  rw [countOpens, hb, htail]
  rfl

theorem countOpens_renderEntries {entries : List DNEntry}
    (h : ∀ e ∈ entries, entryOk e = true) :
    countOpens (renderEntries entries) = entries.length := by
  induction entries with
  | nil => rfl
  | cons e rest ih =>
    have hflat : renderEntries (e :: rest) = renderEntry e ++ renderEntries rest := by
      rw [renderEntries, List.map_cons, List.flatten_cons]
      rfl
    rw [hflat, countOpens_render (h e (List.mem_cons_self e rest)),
      ih fun e2 he2 => h e2 (List.mem_cons_of_mem e he2), List.length_cons]
    omega

theorem ciPre_false_head {p c : Char} (ps cs : Str) (h : (lowN p == lowN c) = false) :
    ciPre (p :: ps) (c :: cs) = false := by
  rw [ciPre, h, Bool.false_and]

theorem nameAttrAt_none_of_head {c : Char} (cs : Str)
    (h : (lowN 'n' == lowN c) = false) : nameAttrAt (c :: cs) = none := by
  have hci : ciPre (lstr "name") (c :: cs) = false := by
    rw [show lstr "name" = 'n' :: lstr "ame" from rfl]
    exact ciPre_false_head _ _ h
  rw [nameAttrAt, hci]
  rfl

theorem findNameAttr_step {c : Char} {cs : Str} {pw : Bool}
    (h : nameAttrAt (c :: cs) = none ∨ pw = true) :
    findNameAttr (c :: cs) pw = findNameAttr cs (isWordChar c) := by
  cases pw with
  | true => rfl
  | false =>
    rcases h with h | h
    · rw [findNameAttr, h]
      rfl
    · exact absurd h (by decide)

theorem nameAttrAt_render {nm : Str} (hq : ∀ c ∈ nm, (c == '"') = false) (z : Str) :
    nameAttrAt ('n' :: (lstr "ame=\"" ++ (nm ++ ('"' :: z)))) = some nm := by
  have hred : nameAttrAt ('n' :: (lstr "ame=\"" ++ (nm ++ ('"' :: z)))) =
      (match findChar '"' (nm ++ ('"' :: z)) with
       | some q => some ((nm ++ ('"' :: z)).take q)
       | none => none) := rfl
  rw [hred, skipsChar_of_all hq ('"' :: z), findChar_self]
  simp only [Option.map_some', Nat.zero_add]
  rw [List.take_left]

theorem findNameAttr_render {nm : Str} (hq : ∀ c ∈ nm, (c == '"') = false)
    (z : Str) (pw : Bool) :
    findNameAttr (lstr "<definedName name=\"" ++ (nm ++ ('"' :: z))) pw = some nm := by
  rw [show lstr "<definedName name=\"" ++ (nm ++ ('"' :: z)) =
      '<' :: (lstr "definedName name=\"" ++ (nm ++ ('"' :: z))) from rfl,
    findNameAttr_step (Or.inl (nameAttrAt_none_of_head _ (by decide)))]
  rw [show lstr "definedName name=\"" ++ (nm ++ ('"' :: z)) =
      'd' :: (lstr "efinedName name=\"" ++ (nm ++ ('"' :: z))) from rfl,
    findNameAttr_step (Or.inl (nameAttrAt_none_of_head _ (by decide)))]
  rw [show lstr "efinedName name=\"" ++ (nm ++ ('"' :: z)) =
      'e' :: (lstr "finedName name=\"" ++ (nm ++ ('"' :: z))) from rfl,
    findNameAttr_step (Or.inr (by decide))]
  rw [show lstr "finedName name=\"" ++ (nm ++ ('"' :: z)) =
      'f' :: (lstr "inedName name=\"" ++ (nm ++ ('"' :: z))) from rfl,
    findNameAttr_step (Or.inr (by decide))]
  rw [show lstr "inedName name=\"" ++ (nm ++ ('"' :: z)) =
      'i' :: (lstr "nedName name=\"" ++ (nm ++ ('"' :: z))) from rfl,
    findNameAttr_step (Or.inr (by decide))]
  rw [show lstr "nedName name=\"" ++ (nm ++ ('"' :: z)) =
      'n' :: (lstr "edName name=\"" ++ (nm ++ ('"' :: z))) from rfl,
    findNameAttr_step (Or.inr (by decide))]
  rw [show lstr "edName name=\"" ++ (nm ++ ('"' :: z)) =
      'e' :: (lstr "dName name=\"" ++ (nm ++ ('"' :: z))) from rfl,
    findNameAttr_step (Or.inr (by decide))]
  rw [show lstr "dName name=\"" ++ (nm ++ ('"' :: z)) =
      'd' :: (lstr "Name name=\"" ++ (nm ++ ('"' :: z))) from rfl,
    findNameAttr_step (Or.inr (by decide))]
  rw [show lstr "Name name=\"" ++ (nm ++ ('"' :: z)) =
      'N' :: (lstr "ame name=\"" ++ (nm ++ ('"' :: z))) from rfl,
    findNameAttr_step (Or.inr (by decide))]
  rw [show lstr "ame name=\"" ++ (nm ++ ('"' :: z)) =
      'a' :: (lstr "me name=\"" ++ (nm ++ ('"' :: z))) from rfl,
    findNameAttr_step (Or.inr (by decide))]
  rw [show lstr "me name=\"" ++ (nm ++ ('"' :: z)) =
      'm' :: (lstr "e name=\"" ++ (nm ++ ('"' :: z))) from rfl,
    findNameAttr_step (Or.inr (by decide))]
  rw [show lstr "e name=\"" ++ (nm ++ ('"' :: z)) =
      'e' :: (lstr " name=\"" ++ (nm ++ ('"' :: z))) from rfl,
    findNameAttr_step (Or.inr (by decide))]
  rw [show lstr " name=\"" ++ (nm ++ ('"' :: z)) =
      ' ' :: (lstr "name=\"" ++ (nm ++ ('"' :: z))) from rfl,
    findNameAttr_step (Or.inr (by decide))]
  rw [show lstr "name=\"" ++ (nm ++ ('"' :: z)) =
      'n' :: (lstr "ame=\"" ++ (nm ++ ('"' :: z))) from rfl,
    findNameAttr, nameAttrAt_render hq z]
  rfl

theorem keepChunk_render {e : DNEntry} (h : entryOk e = true) :
    keepChunk (renderEntry e) = keepName e.nm := by
  obtain ⟨hnm, -, -⟩ := entryOk_parts h
  have harr : renderEntry e = lstr "<definedName name=\"" ++
      (e.nm ++ ('"' :: (e.attrs ++ (lstr ">" ++ (e.content ++
        lstr "</definedName>"))))) := by
    rw [renderEntry]
    simp only [List.append_assoc]
    rfl
  have hfind : findNameAttr (renderEntry e) false = some e.nm := by
    rw [harr]
    exact findNameAttr_render
      (fun c hc => beq_quote_false_of_not34 (nmCharOk_parts (hnm c hc)).2.2) _ false
  simp only [keepChunk, hfind, keepName]

theorem isEmpty_map_renderEntry (l : List DNEntry) :
    (l.map renderEntry).isEmpty = l.isEmpty := by
  cases l <;> rfl

/-- C5: `surgical_filter_defined_names_text` on a workbook document made of
a prefix with no case-insensitive occurrence of the block opener, a
canonical `<definedNames>` block of well-formed entries, and a suffix,
keeps exactly the entries whose name attribute is in `KEEP_NAMES`,
removes the whole block when no entry is kept, leaves the prefix and the
suffix byte-for-byte untouched, and reports total = all entries,
kept = retained entries, removed = the difference. -/
theorem C5_defined_names_filter (pre : Str) (entries : List DNEntry) (post : Str)
    (hpre : ∀ j, j < pre.length →
      ciPre (lstr "<definednames") ((renderDoc pre entries post).drop j) = false)
    (hok : ∀ e ∈ entries, entryOk e = true) :
    surgicalFilterDefinedNames (renderDoc pre entries post) =
      (if (entries.filter fun e => keepName e.nm).isEmpty = true then
        (pre ++ post,
          { total := entries.length,
            kept := (entries.filter fun e => keepName e.nm).length,
            removed :=
              entries.length - (entries.filter fun e => keepName e.nm).length })
      else
        (renderDoc pre (entries.filter fun e => keepName e.nm) post,
          { total := entries.length,
            kept := (entries.filter fun e => keepName e.nm).length,
            removed :=
              entries.length - (entries.filter fun e => keepName e.nm).length })) := by
  have hY : renderDoc pre entries post =
      pre ++ (lstr "<definedNames>" ++ (renderEntries entries ++
        (lstr "</definedNames>" ++ post))) := by
    rw [renderDoc]
    simp only [List.append_assoc]
  have hopen := openTagMatch_dnOpen
    (renderEntries entries ++ (lstr "</definedNames>" ++ post))
  have hclose0 : findCI (lstr "</definednames>")
      (List.drop 14 (lstr "<definedNames>" ++ (renderEntries entries ++
        (lstr "</definedNames>" ++ post)))) =
      some (renderEntries entries).length := by
    rw [show (14 : Nat) = (lstr "<definedNames>").length from rfl, List.drop_left]
    exact findCI_close_at_block entries post hok
  have hblockY : findBlock (lstr "<definedNames>" ++ (renderEntries entries ++
      (lstr "</definedNames>" ++ post))) =
      some (0, 14, (renderEntries entries).length) := findBlock_hit hopen hclose0
  have hpre2 : ∀ j, j < pre.length → ciPre (lstr "<definednames")
      ((pre ++ (lstr "<definedNames>" ++ (renderEntries entries ++
        (lstr "</definedNames>" ++ post)))).drop j) = false := by
    intro j hj
    have h2 := hpre j hj
    rwa [hY] at h2
  have hblock : findBlock (renderDoc pre entries post) =
      some (pre.length, 14, (renderEntries entries).length) := by
    rw [hY, findBlock_shift _ _ hpre2, hblockY]
    simp
  have htakeP : (renderDoc pre entries post).take pre.length = pre := by
    rw [hY, List.take_left]
  have hdropP : (renderDoc pre entries post).drop pre.length =
      lstr "<definedNames>" ++ (renderEntries entries ++
        (lstr "</definedNames>" ++ post)) := by
    rw [hY, List.drop_left]
  have hhead : ((renderDoc pre entries post).drop pre.length).take 14 =
      lstr "<definedNames>" := by
    rw [hdropP]
    exact List.take_left' rfl
  have hgrp2 : renderDoc pre entries post =
      (pre ++ lstr "<definedNames>") ++ (renderEntries entries ++
        (lstr "</definedNames>" ++ post)) := by
    rw [hY]
    simp only [List.append_assoc]
  have hdrop14 : (renderDoc pre entries post).drop (pre.length + 14) =
      renderEntries entries ++ (lstr "</definedNames>" ++ post) := by
    rw [hgrp2]
    apply List.drop_left'
    rw [List.length_append]
    rfl
  have hbody : ((renderDoc pre entries post).drop (pre.length + 14)).take
      (renderEntries entries).length = renderEntries entries := by
    rw [hdrop14, List.take_left]
  have hgrp3 : renderDoc pre entries post =
      ((pre ++ lstr "<definedNames>") ++ renderEntries entries) ++
        (lstr "</definedNames>" ++ post) := by
    rw [hY]
    simp only [List.append_assoc]
  have hdropK : (renderDoc pre entries post).drop
      (pre.length + 14 + (renderEntries entries).length) =
      lstr "</definedNames>" ++ post := by
    rw [hgrp3]
    apply List.drop_left'
    rw [List.length_append, List.length_append]
    rfl
  have htail : ((renderDoc pre entries post).drop
      (pre.length + 14 + (renderEntries entries).length)).take 15 =
      lstr "</definedNames>" := by
    rw [hdropK]
    exact List.take_left' rfl
  have hgrp4 : renderDoc pre entries post =
      (((pre ++ lstr "<definedNames>") ++ renderEntries entries) ++
        lstr "</definedNames>") ++ post := by
    rw [hY]
    simp only [List.append_assoc]
  have hend : (renderDoc pre entries post).drop
      (pre.length + 14 + (renderEntries entries).length + 15) = post := by
    rw [hgrp4]
    apply List.drop_left'
    rw [List.length_append, List.length_append, List.length_append]
    rfl
  have hfilter : (entries.map renderEntry).filter keepChunk =
      (entries.filter fun e => keepName e.nm).map renderEntry := by
    rw [List.filter_map]
    congr 1
    apply List.filter_congr
    intro e he
    simp only [Function.comp_apply]
    exact keepChunk_render (hok e he)
  simp only [surgicalFilterDefinedNames, hblock]
  rw [hbody, htakeP, hhead, htail, hend, countOpens_renderEntries hok,
    scanEntries_renderEntries hok, hfilter, isEmpty_map_renderEntry,
    List.length_map]
  simp only [renderDoc, renderEntries]

/-- C5 witness: a document with one Print_Area entry and one macro-scoped
entry; the filter keeps exactly the Print_Area entry and reports
total 2, kept 1, removed 1. -/
theorem C5_defined_names_filter_witness :
    (∀ j, j < (lstr "<workbook>").length →
      ciPre (lstr "<definednames") ((renderDoc (lstr "<workbook>")
        [⟨lstr "Print_Area", [], lstr "Sheet1!A1"⟩,
         ⟨lstr "MyMacroName", [], lstr "Sheet1!B2"⟩]
        (lstr "</workbook>")).drop j) = false) ∧
    (∀ e ∈ [(⟨lstr "Print_Area", [], lstr "Sheet1!A1"⟩ : DNEntry),
         ⟨lstr "MyMacroName", [], lstr "Sheet1!B2"⟩], entryOk e = true) ∧
    surgicalFilterDefinedNames (renderDoc (lstr "<workbook>")
        [⟨lstr "Print_Area", [], lstr "Sheet1!A1"⟩,
         ⟨lstr "MyMacroName", [], lstr "Sheet1!B2"⟩] (lstr "</workbook>")) =
      (renderDoc (lstr "<workbook>") [⟨lstr "Print_Area", [], lstr "Sheet1!A1"⟩]
        (lstr "</workbook>"),
       { total := 2, kept := 1, removed := 1 }) :=
  ⟨by decide, by decide, by
    rw [C5_defined_names_filter (lstr "<workbook>")
      [⟨lstr "Print_Area", [], lstr "Sheet1!A1"⟩,
       ⟨lstr "MyMacroName", [], lstr "Sheet1!B2"⟩] (lstr "</workbook>")
      (by decide) (by decide)]
    decide⟩

end RenderLemmas

/-- The PNG branch of the aggressive-mode loop (lines 275-280 of
excel_slimmer_precision_plus.py): on a successful conversion the pair
old name to new name is appended to the rename map and the asset counts
as changed; otherwise the map is untouched. -/
def pngAggressiveStep (rm : List (Str × Str)) (name : Str) (i : PngInput) :
    List (Str × Str) × Bool :=
  match convertPngToJpg i with
  | some nm => (rm ++ [(name, nm)], true)
  | none => (rm, false)

/-- C6: in aggressive mode a PNG asset is format-converted only when it is
opaque — mode RGBA or LA, or any transparency metadata, blocks the
conversion and leaves the rename map untouched — and a performed
conversion requires a strictly smaller JPEG, yields the `.jpg` filename
on the same stem, and appends the old-to-new pair to the rename map. -/
theorem C6_png_conversion (rm : List (Str × Str)) (name : Str) (i : PngInput) :
    (hasAlpha i = true → pngAggressiveStep rm name i = (rm, false)) ∧
    (∀ nm, convertPngToJpg i = some nm →
      hasAlpha i = false ∧ nm = i.stem ++ lstr ".jpg" ∧
      i.jpegSize < i.origSize ∧
      pngAggressiveStep rm name i =
        (rm ++ [(name, i.stem ++ lstr ".jpg")], true)) := by
  constructor
  · intro ha
    have h0 : convertPngToJpg i = none := by
      rw [convertPngToJpg, ha]
      rfl
    simp only [pngAggressiveStep, h0]
  · intro nm hnm
    have ha : hasAlpha i = false := by
      cases hA : hasAlpha i
      · rfl
      · rw [convertPngToJpg, hA] at hnm
        simp at hnm
    have hsz : i.jpegSize < i.origSize := by
      by_cases hs : i.jpegSize < i.origSize
      · exact hs
      · rw [convertPngToJpg, ha] at hnm
        simp [hs] at hnm
    have hval : nm = i.stem ++ lstr ".jpg" := by
      rw [convertPngToJpg, ha] at hnm
      simp [hsz] at hnm
      exact hnm.symm
    refine ⟨ha, hval, hsz, ?_⟩
    simp only [pngAggressiveStep, hnm, hval]

/-- C6 witness: an opaque PNG with a smaller JPEG encoding is converted
and recorded; the conversion facts follow from the theorem at that
input. -/
theorem C6_png_conversion_witness :
    convertPngToJpg ⟨lstr "img", lstr "RGB", false, 10, 5⟩ =
      some (lstr "img.jpg") ∧
    (hasAlpha ⟨lstr "img", lstr "RGB", false, 10, 5⟩ = false ∧
      lstr "img.jpg" = lstr "img" ++ lstr ".jpg" ∧ 5 < 10 ∧
      pngAggressiveStep [] (lstr "img.png") ⟨lstr "img", lstr "RGB", false, 10, 5⟩ =
        ([(lstr "img.png", lstr "img" ++ lstr ".jpg")], true)) :=
  ⟨by decide,
   (C6_png_conversion [] (lstr "img.png") ⟨lstr "img", lstr "RGB", false, 10, 5⟩).2
     (lstr "img.jpg") (by decide)⟩

/-- One media asset of the unpacked package: filename and bytes. -/
structure MediaAsset where
  name : Str
  bytes : Bytes
deriving DecidableEq

/-- The per-asset loop of `recompress_images_with_sync` (lines 254-290):
each iteration runs the black-box decode/re-encode `step` inside a
try/except; on success the bytes are replaced only if strictly smaller
and the changed counter advances; on an exception the message is logged
and the asset keeps its bytes; the loop then continues with the
remaining assets.  Results: new assets, changed count, log lines. -/
def recompressLoop (step : MediaAsset → Except Str Bytes) :
    List MediaAsset → List MediaAsset × Nat × List Str
  | [] => ([], 0, [])
  | a :: rest =>
    let r := recompressLoop step rest
    match step a with
    | Except.ok b =>
      (⟨a.name, processMediaBytes a.bytes b⟩ :: r.1,
        (if b.length < a.bytes.length then 1 else 0) + r.2.1, r.2.2)
    | Except.error msg => (⟨a.name, a.bytes⟩ :: r.1, r.2.1, msg :: r.2.2)

/-- C7: a failing asset is isolated — its exception is logged, its bytes
are kept unchanged, and every other asset before and after it is
processed exactly as it would be on its own; the run is never aborted by
a single corrupt asset. -/
theorem C7_fault_isolation (step : MediaAsset → Except Str Bytes)
    (xs ys : List MediaAsset) (a : MediaAsset) (msg : Str)
    (hfail : step a = Except.error msg) :
    recompressLoop step (xs ++ a :: ys) =
      ((recompressLoop step xs).1 ++ ⟨a.name, a.bytes⟩ :: (recompressLoop step ys).1,
       (recompressLoop step xs).2.1 + (recompressLoop step ys).2.1,
       (recompressLoop step xs).2.2 ++ msg :: (recompressLoop step ys).2.2) := by
  induction xs with
  | nil =>
    simp only [List.nil_append, recompressLoop, hfail, Nat.zero_add]
  | cons x rest ih =>
    rw [List.cons_append, recompressLoop, ih, recompressLoop]
    cases hx : step x with
    | ok b =>
      dsimp only
      refine congrArg₂ _ rfl (congrArg₂ _ ?_ rfl)
      omega
    | error m =>
      dsimp only
      rfl

/-- C7 witness: in a three-asset directory whose middle asset raises, the
other two are still re-encoded, the middle keeps its bytes, and its
message is logged. -/
theorem C7_fault_isolation_witness :
    (fun a : MediaAsset => if a.name == lstr "bad.png"
        then (Except.error (lstr "corrupt") : Except Str Bytes)
        else Except.ok [7]) ⟨lstr "bad.png", [1, 2, 3]⟩ =
      Except.error (lstr "corrupt") ∧
    recompressLoop (fun a : MediaAsset => if a.name == lstr "bad.png"
        then Except.error (lstr "corrupt") else Except.ok [7])
      ([⟨lstr "a.jpg", [1, 2]⟩] ++ ⟨lstr "bad.png", [1, 2, 3]⟩ ::
        [⟨lstr "c.png", [4, 5]⟩]) =
      ([⟨lstr "a.jpg", [7]⟩, ⟨lstr "bad.png", [1, 2, 3]⟩, ⟨lstr "c.png", [7]⟩],
        2, [lstr "corrupt"]) := by
  refine ⟨rfl, ?_⟩
  rw [C7_fault_isolation (fun a : MediaAsset => if a.name == lstr "bad.png"
      then Except.error (lstr "corrupt") else Except.ok [7])
    [⟨lstr "a.jpg", [1, 2]⟩] [⟨lstr "c.png", [4, 5]⟩]
    ⟨lstr "bad.png", [1, 2, 3]⟩ (lstr "corrupt") rfl]
  rfl

/-- Python `str.lower` on one ASCII character. -/
def lowCh (c : Char) : Char :=
  if 65 ≤ c.toNat && c.toNat ≤ 90 then Char.ofNat (c.toNat + 32) else c

/-- The extension test of process_file line 391 and slim_excel line 50:
the lower-cased suffix must be `.xlsx` or `.xlsm`. -/
def extOk (sfx : Str) : Bool :=
  (sfx.map lowCh == lstr ".xlsx") || (sfx.map lowCh == lstr ".xlsm")

/-- The two early-exit reasons of `process_file`. -/
inductive RunError where
  | notFound
  | unsupportedFormat
deriving DecidableEq

/-- Whether the run touched the input: backup (line 400), extraction
(line 406), output copy (line 434). -/
structure RunEffects where
  backupWritten : Bool
  extracted : Bool
  outputWritten : Bool
deriving DecidableEq

/-- Gate skeleton of `process_file` (lines 386-394): the existence check
runs first, then the extension gate; both return before the backup, the
extraction and the output copy; `work` is the rest of the run. -/
def processFile (exists_ : Bool) (sfx : Str)
    (work : Option RunError × RunEffects) : Option RunError × RunEffects :=
  if exists_ = false then (some RunError.notFound, ⟨false, false, false⟩)
  else if extOk sfx = false then
    (some RunError.unsupportedFormat, ⟨false, false, false⟩)
  else work

/-- The two rejection reasons of the web endpoint `slim_excel`. -/
inductive WebError where
  | emptyName
  | unsupportedFormat
deriving DecidableEq

/-- Gate skeleton of `slim_excel` (web_app/main.py lines 46-51): an empty
filename is rejected first, then the lower-cased suffix of the filename
is checked before the upload is saved; `work` is the rest of the
request. -/
def slimExcel (filename : Str) (sfx : Str) (work : Option WebError) :
    Option WebError :=
  if filename.isEmpty then some WebError.emptyName
  else if extOk sfx = false then some WebError.unsupportedFormat
  else work

/-- C8 counterexample: a non-existent input path with a `.txt` extension
fails with the file-not-found exit, not the unsupported-format exit, so
the unrestricted claim over every input path fails; no work is performed
either way. -/
theorem C8_extension_gate_counterexample :
    extOk (lstr ".txt") = false ∧
    processFile false (lstr ".txt") (none, ⟨true, true, true⟩) =
      (some RunError.notFound, ⟨false, false, false⟩) ∧
    RunError.notFound ≠ RunError.unsupportedFormat := by
  refine ⟨by decide, rfl, by decide⟩

/-- C8: for every existing input path whose lower-cased extension is
neither `.xlsx` nor `.xlsm`, `process_file` stops with the
unsupported-format exit and performs no work — no backup, no extraction,
no output — and the web endpoint rejects every non-empty filename with
such a suffix before saving the upload. -/
theorem C8_extension_gate (sfx : Str) (h : extOk sfx = false)
    (work : Option RunError × RunEffects) (filename : Str)
    (wwork : Option WebError) (hfn : filename.isEmpty = false) :
    processFile true sfx work =
      (some RunError.unsupportedFormat, ⟨false, false, false⟩) ∧
    slimExcel filename sfx wwork = some WebError.unsupportedFormat := by
  constructor
  · rw [processFile, h]
    rfl
  · rw [slimExcel, hfn, h]
    rfl

/-- C8 witness: a `.csv` upload named data.csv is rejected by both gates
with the unsupported-format exit and no effects. -/
theorem C8_extension_gate_witness :
    extOk (lstr ".csv") = false ∧ (lstr "data.csv").isEmpty = false ∧
    (processFile true (lstr ".csv") (none, ⟨true, true, true⟩) =
      (some RunError.unsupportedFormat, ⟨false, false, false⟩) ∧
     slimExcel (lstr "data.csv") (lstr ".csv") none =
      some WebError.unsupportedFormat) :=
  ⟨by decide, by decide,
   C8_extension_gate (lstr ".csv") (by decide) (none, ⟨true, true, true⟩)
     (lstr "data.csv") none (by decide)⟩

/-- Decimal digit character. -/
def digitChar (d : Nat) : Char := Char.ofNat (48 + d)

/-- Fuel-indexed decimal rendering worker. -/
def natToStrF : Nat → Nat → Str
  | 0, _ => []
  | f + 1, n =>
    if n < 10 then [digitChar n]
    else natToStrF f (n / 10) ++ [digitChar (n % 10)]

/-- Decimal rendering of a number, as Python f-string interpolation. -/
def natToStr (n : Nat) : Str := natToStrF (n + 1) n

/-- The first candidate `f"{stem}_slimmed{suffix}"` (line 372). -/
def slimmedName (stem sfx : Str) : Str := stem ++ lstr "_slimmed" ++ sfx

/-- The numbered candidate `f"{stem}_slimmed({i}){suffix}"` (line 375). -/
def slimmedNameI (stem sfx : Str) (i : Nat) : Str :=
  stem ++ lstr "_slimmed(" ++ natToStr i ++ lstr ")" ++ sfx

/-- The while loop of `get_new_output_path` (lines 373-377), fuel-indexed:
starting at index i, return the first numbered candidate the file system
does not contain. -/
def findFreeF (exists_ : Str → Bool) (stem sfx : Str) : Nat → Nat → Option Str
  | 0, _ => none
  | f + 1, i =>
    if exists_ (slimmedNameI stem sfx i) then findFreeF exists_ stem sfx f (i + 1)
    else some (slimmedNameI stem sfx i)

/-- `get_new_output_path` (lines 369-377) over an abstract file-system
membership test: the plain `_slimmed` candidate if free, else the first
free `_slimmed(i)` candidate from i = 1. -/
def getNewOutputPath (exists_ : Str → Bool) (stem sfx : Str) (fuel : Nat) :
    Option Str :=
  if exists_ (slimmedName stem sfx) then findFreeF exists_ stem sfx fuel 1
  else some (slimmedName stem sfx)

theorem findFreeF_hits (exists_ : Str → Bool) (stem sfx : Str) :
    ∀ (f i j : Nat), i ≤ j → j + 1 ≤ i + f →
      (∀ t, i ≤ t → t < j → exists_ (slimmedNameI stem sfx t) = true) →
      exists_ (slimmedNameI stem sfx j) = false →
      findFreeF exists_ stem sfx f i = some (slimmedNameI stem sfx j)
  | 0, i, j, hij, hf, _, _ => absurd hf (by omega)
  | f + 1, i, j, hij, hf, hbusy, hfree => by
    rw [findFreeF]
    by_cases hi : i = j
    · subst hi
      rw [hfree]
      rfl
    · have hbi : exists_ (slimmedNameI stem sfx i) = true :=
        hbusy i le_rfl (by omega)
      rw [hbi]
      simp only [if_true]
      exact findFreeF_hits exists_ stem sfx f (i + 1) j (by omega) (by omega)
        (fun t ht1 ht2 => hbusy t (by omega) ht2) hfree

theorem findFreeF_out (exists_ : Str → Bool) (stem sfx : Str) :
    ∀ (f i : Nat) (r : Str), findFreeF exists_ stem sfx f i = some r →
      ∃ t, r = slimmedNameI stem sfx t ∧ exists_ r = false
  | 0, _, _, h => by
    rw [findFreeF] at h
    exact absurd h (by simp)
  | f + 1, i, r, h => by
    rw [findFreeF] at h
    cases he : exists_ (slimmedNameI stem sfx i) with
    | true =>
      rw [he] at h
      simp only [if_true] at h
      exact findFreeF_out exists_ stem sfx f (i + 1) r h
    | false =>
      rw [he] at h
      simp only [Bool.false_eq_true, if_false, Option.some.injEq] at h
      exact ⟨i, h.symm, h ▸ he⟩

theorem natToStr_len (n : Nat) : 1 ≤ (natToStr n).length := by
  rw [natToStr, natToStrF]
  by_cases h : n < 10
  · simp [h]
  · simp [h, List.length_append]

theorem slimmedName_len (stem sfx : Str) :
    (slimmedName stem sfx).length = stem.length + 8 + sfx.length := by
  simp [slimmedName, List.length_append,
    show (lstr "_slimmed").length = 8 from rfl]
  omega

theorem slimmedNameI_len (stem sfx : Str) (i : Nat) :
    (slimmedNameI stem sfx i).length =
      stem.length + 9 + (natToStr i).length + 1 + sfx.length := by
  simp [slimmedNameI, List.length_append,
    show (lstr "_slimmed(").length = 9 from rfl,
    show (lstr ")").length = 1 from rfl]
  omega

/-- C9: when the first numbered candidate free on the file system is
index j (and the fuel covers it), the chosen output is the plain
`_slimmed` name if that is free, else `_slimmed(j)`; and every returned
path is free on the file system and is never the original `stem ++ ext`
path. -/
theorem C9_output_naming (exists_ : Str → Bool) (stem sfx : Str) (j fuel : Nat)
    (hj1 : 1 ≤ j) (hfuel : j ≤ fuel)
    (hbusy : ∀ i, 1 ≤ i → i < j → exists_ (slimmedNameI stem sfx i) = true)
    (hfree : exists_ (slimmedNameI stem sfx j) = false) :
    (exists_ (slimmedName stem sfx) = false →
      getNewOutputPath exists_ stem sfx fuel = some (slimmedName stem sfx)) ∧
    (exists_ (slimmedName stem sfx) = true →
      getNewOutputPath exists_ stem sfx fuel = some (slimmedNameI stem sfx j)) ∧
    (∀ r, getNewOutputPath exists_ stem sfx fuel = some r →
      exists_ r = false ∧ r ≠ stem ++ sfx) := by
  refine ⟨?_, ?_, ?_⟩
  · intro hn
    rw [getNewOutputPath, hn]
    rfl
  · intro hy
    rw [getNewOutputPath, hy]
    simp only [if_true]
    exact findFreeF_hits exists_ stem sfx fuel 1 j hj1 (by omega) hbusy hfree
  · intro r hr
    rw [getNewOutputPath] at hr
    cases hy : exists_ (slimmedName stem sfx) with
    | false =>
      rw [hy] at hr
      simp only [Bool.false_eq_true, if_false, Option.some.injEq] at hr
      subst hr
      refine ⟨hy, fun heq => ?_⟩
      have hlen := congrArg List.length heq
      rw [slimmedName_len, List.length_append] at hlen
      omega
    | true =>
      rw [hy] at hr
      simp only [if_true] at hr
      obtain ⟨t, ht, hfr⟩ := findFreeF_out exists_ stem sfx fuel 1 r hr
      refine ⟨hfr, fun heq => ?_⟩
      rw [ht] at heq
      have hlen := congrArg List.length heq
      rw [slimmedNameI_len, List.length_append] at hlen
      have := natToStr_len t
      omega

/-- C9 witness: a second run on report.xlsx, with report_slimmed.xlsx
already present, picks report_slimmed(1).xlsx. -/
theorem C9_output_naming_witness :
    (fun s => s == slimmedName (lstr "report") (lstr ".xlsx"))
        (slimmedName (lstr "report") (lstr ".xlsx")) = true ∧
    getNewOutputPath (fun s => s == slimmedName (lstr "report") (lstr ".xlsx"))
        (lstr "report") (lstr ".xlsx") 1 =
      some (lstr "report_slimmed(1).xlsx") := by
  refine ⟨by decide, ?_⟩
  rw [(C9_output_naming (fun s => s == slimmedName (lstr "report") (lstr ".xlsx"))
      (lstr "report") (lstr ".xlsx") 1 1 le_rfl le_rfl
      (fun i hi hlt => absurd hlt (by omega)) (by decide)).2.1 (by decide)]
  decide

/-- Effect of a successful `convert_png_to_jpg_with_rename_and_resize`
call on the media directory (lines 164-176): the stem.png asset is
unlinked, a pre-existing asset under the new stem.jpg name is unlinked
(lines 170-171), and the converted JPEG bytes are written under the new
name; a refused conversion leaves the directory unchanged. -/
def convertInDir (dir : List (Str × Bytes)) (i : PngInput) (jpegBytes : Bytes) :
    List (Str × Bytes) :=
  match convertPngToJpg i with
  | none => dir
  | some newName =>
    (dir.filter fun a =>
      !(a.1 == i.stem ++ lstr ".png") && !(a.1 == newName)) ++
      [(newName, jpegBytes)]

/-- C10: when the media directory holds an opaque stem.png and a distinct
stem.jpg asset and the JPEG re-encoding is strictly smaller, converting
stem.png destroys the pre-existing stem.jpg asset — its old bytes are
gone, only the converted bytes remain under that name — and the
directory ends with one asset fewer. -/
theorem C10_jpg_destroyed (rest dir : List (Str × Bytes)) (i : PngInput)
    (jpegBytes pngBytes oldBytes : Bytes)
    (hop : hasAlpha i = false) (hsm : i.jpegSize < i.origSize)
    (hperm : dir.Perm ((i.stem ++ lstr ".png", pngBytes) ::
      (i.stem ++ lstr ".jpg", oldBytes) :: rest))
    (hrest : ∀ a ∈ rest, (a.1 == i.stem ++ lstr ".png") = false ∧
      (a.1 == i.stem ++ lstr ".jpg") = false) :
    (convertInDir dir i jpegBytes).length + 1 = dir.length ∧
    (∀ b, (i.stem ++ lstr ".jpg", b) ∈ convertInDir dir i jpegBytes →
      b = jpegBytes) ∧
    (oldBytes ≠ jpegBytes →
      (i.stem ++ lstr ".jpg", oldBytes) ∉ convertInDir dir i jpegBytes) := by
  have hconv : convertPngToJpg i = some (i.stem ++ lstr ".jpg") := by
    rw [convertPngToJpg, hop]
    simp [hsm]
  have hcd : convertInDir dir i jpegBytes =
      (dir.filter fun a =>
        !(a.1 == i.stem ++ lstr ".png") && !(a.1 == i.stem ++ lstr ".jpg")) ++
        [(i.stem ++ lstr ".jpg", jpegBytes)] := by
    simp only [convertInDir, hconv]
  have hmem2 : ∀ b, (i.stem ++ lstr ".jpg", b) ∈ convertInDir dir i jpegBytes →
      b = jpegBytes := by
    intro b hb
    rw [hcd, List.mem_append] at hb
    rcases hb with hb | hb
    · rw [List.mem_filter] at hb
      simp at hb
    · simp at hb
      exact hb
  refine ⟨?_, hmem2, fun hne hmem => hne (hmem2 oldBytes hmem)⟩
  have hfl : (dir.filter fun a =>
      !(a.1 == i.stem ++ lstr ".png") && !(a.1 == i.stem ++ lstr ".jpg")).length =
      rest.length := by
    have hp := (hperm.filter fun a =>
      !(a.1 == i.stem ++ lstr ".png") && !(a.1 == i.stem ++ lstr ".jpg")).length_eq
    rw [hp]
    have hr : List.filter (fun a =>
        !(a.1 == i.stem ++ lstr ".png") && !(a.1 == i.stem ++ lstr ".jpg")) rest =
        rest := by
      rw [List.filter_eq_self]
      intro a ha
      rw [(hrest a ha).1, (hrest a ha).2]
      rfl
    rw [List.filter_cons, List.filter_cons, hr]
    simp
  rw [hcd, List.length_append, hfl, hperm.length_eq]
  simp

/-- C10 witness: a three-asset directory with a.png (opaque, smaller as
JPEG) and a distinct a.jpg ends with two assets, and the old a.jpg bytes
are gone. -/
theorem C10_jpg_destroyed_witness :
    hasAlpha ⟨lstr "a", lstr "RGB", false, 3, 2⟩ = false ∧
    (2 : Nat) < 3 ∧
    ((convertInDir [(lstr "a.png", [1, 2, 3]), (lstr "a.jpg", [4]),
        (lstr "b.png", [9])] ⟨lstr "a", lstr "RGB", false, 3, 2⟩ [5, 5]).length + 1 =
      ([(lstr "a.png", [1, 2, 3]), (lstr "a.jpg", [4]),
        (lstr "b.png", [9])] : List (Str × Bytes)).length ∧
     (∀ b, (lstr "a" ++ lstr ".jpg", b) ∈ convertInDir
        [(lstr "a.png", [1, 2, 3]), (lstr "a.jpg", [4]), (lstr "b.png", [9])]
        ⟨lstr "a", lstr "RGB", false, 3, 2⟩ [5, 5] → b = [5, 5]) ∧
     ([4] ≠ ([5, 5] : Bytes) →
      (lstr "a" ++ lstr ".jpg", ([4] : Bytes)) ∉ convertInDir
        [(lstr "a.png", [1, 2, 3]), (lstr "a.jpg", [4]), (lstr "b.png", [9])]
        ⟨lstr "a", lstr "RGB", false, 3, 2⟩ [5, 5])) :=
  ⟨by decide, by decide,
   C10_jpg_destroyed [(lstr "b.png", [9])]
     [(lstr "a.png", [1, 2, 3]), (lstr "a.jpg", [4]), (lstr "b.png", [9])]
     ⟨lstr "a", lstr "RGB", false, 3, 2⟩ [5, 5] [1, 2, 3] [4]
     (by decide) (by decide) (by decide) (by decide)⟩

end ExcelSlim
